import Mathlib

/-!
# SimpleVector over ArrayPtr: a verification development

Embedding of `simple-vector/array_ptr.h` and `simple-vector/simple_vector.h`.

Modelling conventions.

* The free store is explicit.  A `Heap α` is the list of all blocks ever
  allocated with `new Type[n]{}`; the address of a block is its index in that
  list.  A released block (`delete[]`) is `none`.  Raw pointers `Type*` are
  `Option Nat`, `none` being `nullptr`; a pointer into a block is the block
  address together with an element offset.
* Every operation threads the heap and returns an `Option`: `none` stands for a
  failed `assert` or for undefined behaviour (access outside a live block,
  `delete[]` of a block that is not live).
* `size_t` values are natural numbers.  A capacity of `2^63` elements or more
  cannot be allocated, so the products and sums of the source never wrap, and
  every subtraction of the source is guarded by a comparison.
* `new` is taken to succeed, except in the definitions named `_alloc`, which tell
  what `std::bad_alloc` leaves behind when the allocation of a call fails.
* Moving an element (`std::move` on a `Type`) is modelled as copying it, which
  is what it is for trivially copyable element types; the value left in a
  moved-from slot is never part of the logical contents.
* `Type{}` is `default`, `operator<` on `Type` is `<`, and `operator!=` on `Type` is
  `!=` of a `BEq` instance, which need not be the negation of equality.
-/

namespace SimpleVec

/-- The free store: block `a` is `some cells` while live, `none` once released. -/
abbrev Heap (α : Type) := List (Option (List α))

namespace Heap

variable {α : Type}

/-- The cells of the live block a raw pointer points to, if any. -/
def block (h : Heap α) (p : Option Nat) : Option (List α) :=
  match p with
  | none => none
  | some a => h.getD a none

/-- The expression `new Type[n]{}`: a fresh block of `n` value-initialised cells. -/
def new_array [Inhabited α] (h : Heap α) (n : Nat) : Heap α × Option Nat :=
  (h ++ [some (List.replicate n default)], some h.length)

/-- The statement `delete[] p`: nothing for `nullptr`, undefined when the block is not live. -/
def delete_array (h : Heap α) (p : Option Nat) : Option (Heap α) :=
  match p with
  | none => some h
  | some a =>
    match h.getD a none with
    | some _ => some (h.set a none)
    | none => none

/-- Reading `p[i]`. -/
def load (h : Heap α) (p : Option Nat) (i : Nat) : Option α :=
  match h.block p with
  | some cells => cells[i]?
  | none => none

/-- Writing `p[i] = x`. -/
def store (h : Heap α) (p : Option Nat) (i : Nat) (x : α) : Option (Heap α) :=
  match p with
  | none => none
  | some a =>
    match h.getD a none with
    | some cells => if i < cells.length then some (h.set a (some (cells.set i x))) else none
    | none => none

/-- The heap `h1` is `h` with block `a` replaced by `R`, everything else untouched. -/
def Updated (h h1 : Heap α) (a : Nat) (R : List α) : Prop :=
  h1.length = h.length ∧ h1.getD a none = some R ∧
    ∀ c, c ≠ a → h1.getD c none = h.getD c none

end Heap

/-- The loop of `std::move(first, last, d_first)` (also of `std::copy`), ascending:
`n = last - first` elements from `src + s` to `dst + d`. -/
def std_move_loop {α : Type} :
    Nat → Option Nat → Nat → Option Nat → Nat → Heap α → Option (Heap α)
  | 0, _, _, _, _, h => some h
  | n + 1, src, s, dst, d, h =>
    match h.load src s with
    | none => none
    | some x =>
      match h.store dst d x with
      | none => none
      | some h1 => std_move_loop n src (s + 1) dst (d + 1) h1

/-- Model of `std::move(src + first, src + last, dst + d_first)`. -/
def std_move {α : Type} (h : Heap α) (src : Option Nat) (first last : Nat)
    (dst : Option Nat) (d_first : Nat) : Option (Heap α) :=
  std_move_loop (last - first) src first dst d_first h

/-- Model of `std::copy(src + first, src + last, dst + d_first)`. -/
def std_copy {α : Type} (h : Heap α) (src : Option Nat) (first last : Nat)
    (dst : Option Nat) (d_first : Nat) : Option (Heap α) :=
  std_move_loop (last - first) src first dst d_first h

/-- The loop of `std::move_backward(first, last, d_last)`, descending:
`*(--d_last) = std::move(*(--last))`, `n = last - first` times. -/
def std_move_backward_loop {α : Type} :
    Nat → Option Nat → Nat → Option Nat → Nat → Heap α → Option (Heap α)
  | 0, _, _, _, _, h => some h
  | n + 1, src, last, dst, d_last, h =>
    match h.load src (last - 1) with
    | none => none
    | some x =>
      match h.store dst (d_last - 1) x with
      | none => none
      | some h1 => std_move_backward_loop n src (last - 1) dst (d_last - 1) h1

/-- Model of `std::move_backward(src + first, src + last, dst + d_last)`. -/
def std_move_backward {α : Type} (h : Heap α) (src : Option Nat) (first last : Nat)
    (dst : Option Nat) (d_last : Nat) : Option (Heap α) :=
  std_move_backward_loop (last - first) src last dst d_last h

/-- The class `ArrayPtr<Type>`: one raw pointer. -/
structure ArrayPtr where
  raw_ptr_ : Option Nat := none
deriving DecidableEq

namespace ArrayPtr

/-- The constructor `ArrayPtr(size_t size)`. -/
def create {α : Type} [Inhabited α] (h : Heap α) (size : Nat) : Heap α × ArrayPtr :=
  if size ≠ 0 then
    let r := h.new_array size
    (r.1, { raw_ptr_ := r.2 })
  else (h, { raw_ptr_ := none })

/-- The move constructor `ArrayPtr(ArrayPtr&& other)`: the new object and `other` afterwards. -/
def move_construct (other : ArrayPtr) : ArrayPtr × ArrayPtr :=
  ({ raw_ptr_ := other.raw_ptr_ }, { raw_ptr_ := none })

/-- The destructor `~ArrayPtr()`. -/
def destroy {α : Type} (h : Heap α) (p : ArrayPtr) : Option (Heap α) :=
  h.delete_array p.raw_ptr_

/-- The move assignment `*this = std::move(other)` for two distinct objects: the
raw pointers are swapped. Returns `*this` and `other` afterwards. -/
def move_assign (this other : ArrayPtr) : ArrayPtr × ArrayPtr :=
  ({ raw_ptr_ := other.raw_ptr_ }, { raw_ptr_ := this.raw_ptr_ })

/-- The member `Get()`. -/
def Get (p : ArrayPtr) : Option Nat := p.raw_ptr_

/-- The member `swap(other)`. -/
def swap (this other : ArrayPtr) : ArrayPtr × ArrayPtr :=
  ({ raw_ptr_ := other.raw_ptr_ }, { raw_ptr_ := this.raw_ptr_ })

/-- Reading through `operator[](index)`. -/
def read {α : Type} (h : Heap α) (p : ArrayPtr) (index : Nat) : Option α :=
  h.load p.raw_ptr_ index

/-- Writing through `operator[](index)`. -/
def write {α : Type} (h : Heap α) (p : ArrayPtr) (index : Nat) (x : α) : Option (Heap α) :=
  h.store p.raw_ptr_ index x

end ArrayPtr

/-- The data members of `SimpleVector<Type>`. -/
structure SimpleVector where
  size_ : Nat := 0
  capacity_ : Nat := 0
  array_ : ArrayPtr := {}
deriving DecidableEq

namespace SimpleVector

variable {α : Type}

/-- The default constructor `SimpleVector()`. -/
def empty : SimpleVector := {}

/-- The member `GetSize()`. -/
def GetSize (v : SimpleVector) : Nat := v.size_

/-- The member `GetCapacity()`. -/
def GetCapacity (v : SimpleVector) : Nat := v.capacity_

/-- The member `IsEmpty()`. -/
def IsEmpty (v : SimpleVector) : Bool := v.size_ == 0

/-- The private member `IncreaseCapacity(value)`; the old block is released by the
destructor of the local `tmp_array`, which holds it after the move assignment. -/
def IncreaseCapacity [Inhabited α] (h : Heap α) (v : SimpleVector) (value : Nat) :
    Option (Heap α × SimpleVector) :=
  let new_capacity := max (v.size_ + value) (2 * v.capacity_)
  let r := ArrayPtr.create h new_capacity
  match std_move r.1 v.array_.Get 0 v.size_ r.2.Get 0 with
  | none => none
  | some h2 =>
    let q := ArrayPtr.move_assign v.array_ r.2
    match ArrayPtr.destroy h2 q.2 with
    | none => none
    | some h3 => some (h3, { size_ := v.size_, capacity_ := new_capacity, array_ := q.1 })

/-- The member `PushBack(Type&& item)`; `PushBack(const Type&)` copies and forwards to it. -/
def PushBack [Inhabited α] (h : Heap α) (v : SimpleVector) (item : α) :
    Option (Heap α × SimpleVector) :=
  if v.size_ < v.capacity_ then
    match v.array_.write h v.size_ item with
    | none => none
    | some h1 => some (h1, { v with size_ := v.size_ + 1 })
  else
    match IncreaseCapacity h v 1 with
    | none => none
    | some (h1, v1) =>
      match v1.array_.write h1 v1.size_ item with
      | none => none
      | some h2 => some (h2, { v1 with size_ := v1.size_ + 1 })

/-- Outcome of the checked accessor `At`. -/
inductive Checked (α : Type) where
  | value (x : α)
  | out_of_range
  | undefined
deriving DecidableEq

/-- The member `At(index)` (both overloads), read through the returned reference. -/
def At (h : Heap α) (v : SimpleVector) (index : Nat) : Checked α :=
  if index ≥ v.size_ then Checked.out_of_range
  else
    match v.array_.read h index with
    | some x => Checked.value x
    | none => Checked.undefined

/-- The member `operator[](index)` (both overloads), read through the returned reference. -/
def operator_subscript (h : Heap α) (v : SimpleVector) (index : Nat) : Option α :=
  if index < v.size_ then v.array_.read h index else none

/-- The assignment `v[index] = x` through the reference returned by `operator[]`. -/
def assign_subscript (h : Heap α) (v : SimpleVector) (index : Nat) (x : α) :
    Option (Heap α) :=
  if index < v.size_ then v.array_.write h index x else none

/-- The member `Clear()`. -/
def Clear (v : SimpleVector) : SimpleVector := { v with size_ := 0 }

/-- The member `PopBack()`. -/
def PopBack (v : SimpleVector) : SimpleVector :=
  if v.size_ ≠ 0 then { v with size_ := v.size_ - 1 } else v

/-- The member `Erase(pos)`, with `pos = begin() + index`; the returned iterator is
given by its offset from `begin()`. -/
def Erase (h : Heap α) (v : SimpleVector) (index : Nat) :
    Option (Heap α × SimpleVector × Nat) :=
  if index < v.size_ then
    match std_move h v.array_.Get (index + 1) v.size_ v.array_.Get index with
    | none => none
    | some h1 => some (h1, { v with size_ := v.size_ - 1 }, index)
  else none

/-- The member `Insert(pos, Type&& item)`, with `pos = begin() + index`;
`Insert(pos, const Type&)` copies and forwards to it. -/
def Insert [Inhabited α] (h : Heap α) (v : SimpleVector) (index : Nat) (item : α) :
    Option (Heap α × SimpleVector × Nat) :=
  if index ≤ v.size_ then
    match (if v.size_ = v.capacity_ then IncreaseCapacity h v 1 else some (h, v)) with
    | none => none
    | some (h1, v1) =>
      match std_move_backward h1 v1.array_.Get index v1.size_ v1.array_.Get (v1.size_ + 1) with
      | none => none
      | some h2 =>
        match v1.array_.write h2 index item with
        | none => none
        | some h3 => some (h3, { v1 with size_ := v1.size_ + 1 }, index)
  else none

/-- The member `Reserve(new_capacity)`. -/
def Reserve [Inhabited α] (h : Heap α) (v : SimpleVector) (new_capacity : Nat) :
    Option (Heap α × SimpleVector) :=
  if new_capacity > v.capacity_ then
    IncreaseCapacity h { v with capacity_ := 0 } (new_capacity - v.size_)
  else some (h, v)

/-- The loop `while (size_ < new_size) PushBack(Type{})`, bounded by a number of rounds. -/
def FillDummies_loop [Inhabited α] :
    Nat → Heap α → SimpleVector → Nat → Option (Heap α × SimpleVector)
  | 0, h, v, new_size => if v.size_ < new_size then none else some (h, v)
  | fuel + 1, h, v, new_size =>
    if v.size_ < new_size then
      match PushBack h v default with
      | none => none
      | some (h1, v1) => FillDummies_loop fuel h1 v1 new_size
    else some (h, v)

/-- The private member `FillDummies(new_size)`; every round adds one element, so
`new_size - size_` rounds are all the loop can make. -/
def FillDummies [Inhabited α] (h : Heap α) (v : SimpleVector) (new_size : Nat) :
    Option (Heap α × SimpleVector) :=
  FillDummies_loop (new_size - v.size_) h v new_size

/-- The member `Resize(new_size)`. -/
def Resize [Inhabited α] (h : Heap α) (v : SimpleVector) (new_size : Nat) :
    Option (Heap α × SimpleVector) :=
  if new_size ≤ v.size_ then some (h, { v with size_ := new_size })
  else if new_size ≤ v.capacity_ then FillDummies h v new_size
  else
    match IncreaseCapacity h v (new_size - v.size_) with
    | none => none
    | some (h1, v1) => FillDummies h1 v1 new_size

/-- The member `swap(other)`: `*this` and `other` afterwards. -/
def swap (this other : SimpleVector) : SimpleVector × SimpleVector :=
  let q := ArrayPtr.swap this.array_ other.array_
  ({ size_ := other.size_, capacity_ := other.capacity_, array_ := q.1 },
   { size_ := this.size_, capacity_ := this.capacity_, array_ := q.2 })

/-- The private member `CopyContainer(container)` for a container whose elements
are the `n` cells from `first`: `std::copy(container.begin(), container.end(), begin())`. -/
def CopyContainer (h : Heap α) (v : SimpleVector) (first : Option Nat) (n : Nat) :
    Option (Heap α) :=
  std_copy h first 0 n v.array_.Get 0

/-- The copy constructor `SimpleVector(const SimpleVector& other)`. -/
def copy_construct [Inhabited α] (h : Heap α) (other : SimpleVector) :
    Option (Heap α × SimpleVector) :=
  let r := ArrayPtr.create h other.GetSize
  let v : SimpleVector :=
    { size_ := other.GetSize, capacity_ := other.GetSize, array_ := r.2 }
  match CopyContainer r.1 v other.array_.Get other.size_ with
  | none => none
  | some h1 => some (h1, v)

/-- The implicit destructor `~SimpleVector()`: the destructor of `array_`. -/
def destroy (h : Heap α) (v : SimpleVector) : Option (Heap α) :=
  ArrayPtr.destroy h v.array_

/-- The copy assignment `*this = rhs`: copy into `tmp`, swap, and `tmp` is
destroyed on return. Returns `*this` afterwards. -/
def copy_assign [Inhabited α] (h : Heap α) (this rhs : SimpleVector) :
    Option (Heap α × SimpleVector) :=
  match copy_construct h rhs with
  | none => none
  | some (h1, tmp) =>
    let q := swap this tmp
    match destroy h1 q.2 with
    | none => none
    | some h2 => some (h2, q.1)

/-- The move assignment `*this = std::move(rhs)` for two distinct objects:
`*this` and `rhs` afterwards. -/
def move_assign (h : Heap α) (this rhs : SimpleVector) :
    Option (Heap α × SimpleVector × SimpleVector) :=
  match h.delete_array this.array_.Get with
  | none => none
  | some h1 =>
    let q := ArrayPtr.move_assign this.array_ rhs.array_
    some (h1, { size_ := rhs.size_, capacity_ := rhs.capacity_, array_ := q.1 },
      { size_ := 0, capacity_ := 0, array_ := q.2 })

/-- The move constructor `SimpleVector(SimpleVector&& other)`: the members take
their default initialisers, then `*this = std::move(other)`. -/
def move_construct (h : Heap α) (other : SimpleVector) :
    Option (Heap α × SimpleVector × SimpleVector) :=
  move_assign h {} other

/-- The loop of `std::lexicographical_compare(first1, last1, first2, last2)` with
`operator<`, on `n1 = last1 - first1` and `n2 = last2 - first2` remaining elements. -/
def std_lexicographical_compare [LT α] [DecidableRel (fun (x y : α) => x < y)]
    (h : Heap α) (p1 p2 : Option Nat) : Nat → Nat → Nat → Nat → Option Bool
  | _, 0, _, n2 => some (decide (n2 ≠ 0))
  | _, _ + 1, _, 0 => some false
  | f1, n1 + 1, f2, n2 + 1 =>
    match h.load p1 f1, h.load p2 f2 with
    | some x, some y =>
      if x < y then some true
      else if y < x then some false
      else std_lexicographical_compare h p1 p2 (f1 + 1) n1 (f2 + 1) n2
    | _, _ => none

/-- The free `operator<` on two vectors. -/
def operator_lt [LT α] [DecidableRel (fun (x y : α) => x < y)]
    (h : Heap α) (lhs rhs : SimpleVector) : Option Bool :=
  std_lexicographical_compare h lhs.array_.Get rhs.array_.Get 0 lhs.size_ 0 rhs.size_

/-- The free `operator==` on two vectors; `same_object` is the test `&lhs == &rhs`. -/
def operator_eq [LT α] [DecidableRel (fun (x y : α) => x < y)]
    (h : Heap α) (same_object : Bool) (lhs rhs : SimpleVector) : Option Bool :=
  if same_object then some true
  else if lhs.GetSize ≠ rhs.GetSize then some false
  else
    match operator_lt h lhs rhs with
    | none => none
    | some b1 =>
      if !b1 then
        match operator_lt h rhs lhs with
        | none => none
        | some b2 => some (!b2)
      else some false

/-- Logical contents: the cells `[0, size_)` of the owned block. -/
def toList (h : Heap α) (v : SimpleVector) : List α :=
  match h.block v.array_.raw_ptr_ with
  | some cells => cells.take v.size_
  | none => []

/-- Representation invariant: `size_ ≤ capacity_`, and `array_` is null with
capacity 0 or points to a live block of exactly `capacity_` cells. -/
def Valid (h : Heap α) (v : SimpleVector) : Prop :=
  v.size_ ≤ v.capacity_ ∧
    ((v.array_.raw_ptr_ = none ∧ v.capacity_ = 0) ∨
      (h.block v.array_.raw_ptr_).map List.length = some v.capacity_)

instance (h : Heap α) (v : SimpleVector) : Decidable (Valid h v) := by
  unfold Valid; infer_instance

/-- What a call on `v` may do to the free store: blocks other than the one `v`
owns are untouched, and the block `v1` owns afterwards is that one or a fresh one. -/
def Frame (h : Heap α) (v : SimpleVector) (h1 : Heap α) (v1 : SimpleVector) : Prop :=
  h.length ≤ h1.length ∧
    (∀ c, c < h.length → some c ≠ v.array_.raw_ptr_ → h1.getD c none = h.getD c none) ∧
    (v1.array_.raw_ptr_ = v.array_.raw_ptr_ ∨ v1.array_.raw_ptr_ = none ∨
      ∃ c, v1.array_.raw_ptr_ = some c ∧ h.length ≤ c)

/-- A run of `PushBack` calls, one per element of the list, in order. -/
def PushBackAll [Inhabited α] (h : Heap α) (v : SimpleVector) :
    List α → Option (Heap α × SimpleVector)
  | [] => some (h, v)
  | x :: xs =>
    match PushBack h v x with
    | none => none
    | some (h1, v1) => PushBackAll h1 v1 xs

/-- A mutating call made on one vector. -/
inductive Mutation (α : Type) where
  | assign (index : Nat) (x : α)
  | push_back (x : α)
  | pop_back
  | insert (index : Nat) (x : α)
  | erase (index : Nat)
  | resize (new_size : Nat)
  | reserve (new_capacity : Nat)
  | clear

/-- The effect of one mutating call on the free store and on the vector. -/
def mutate [Inhabited α] (h : Heap α) (v : SimpleVector) :
    Mutation α → Option (Heap α × SimpleVector)
  | Mutation.assign index x =>
    match assign_subscript h v index x with
    | none => none
    | some h1 => some (h1, v)
  | Mutation.push_back x => PushBack h v x
  | Mutation.pop_back => some (h, PopBack v)
  | Mutation.insert index x =>
    match Insert h v index x with
    | none => none
    | some (h1, v1, _) => some (h1, v1)
  | Mutation.erase index =>
    match Erase h v index with
    | none => none
    | some (h1, v1, _) => some (h1, v1)
  | Mutation.resize new_size => Resize h v new_size
  | Mutation.reserve new_capacity => Reserve h v new_capacity
  | Mutation.clear => some (h, Clear v)

/-- A run of mutating calls on one vector, in order. -/
def mutateAll [Inhabited α] (h : Heap α) (v : SimpleVector) :
    List (Mutation α) → Option (Heap α × SimpleVector)
  | [] => some (h, v)
  | m :: ms =>
    match mutate h v m with
    | none => none
    | some (h1, v1) => mutateAll h1 v1 ms

end SimpleVector

namespace ArrayPtr

/-- The conversion `explicit operator bool()`. -/
def to_bool (p : ArrayPtr) : Bool := p.raw_ptr_.isSome

end ArrayPtr

/-- The loop of `std::fill(first, last, value)` on the `n = last - first` cells from `p + i`. -/
def std_fill_loop {α : Type} : Nat → Option Nat → Nat → α → Heap α → Option (Heap α)
  | 0, _, _, _, h => some h
  | n + 1, p, i, x, h =>
    match h.store p i x with
    | none => none
    | some h1 => std_fill_loop n p (i + 1) x h1

/-- Model of `std::fill(p + first, p + last, value)`. -/
def std_fill {α : Type} (h : Heap α) (p : Option Nat) (first last : Nat) (value : α) :
    Option (Heap α) :=
  std_fill_loop (last - first) p first value h

/-- The loop of `std::copy(init.begin(), init.end(), d_first)` for an
`std::initializer_list`, given by its elements, to `dst + d`. -/
def std_copy_list {α : Type} : List α → Option Nat → Nat → Heap α → Option (Heap α)
  | [], _, _, h => some h
  | x :: xs, dst, d, h =>
    match h.store dst d x with
    | none => none
    | some h1 => std_copy_list xs dst (d + 1) h1

/-- The struct `ReserveProxyObj`. -/
structure ReserveProxyObj where
  capacity_to_reserve : Nat
deriving DecidableEq

/-- How a call that may run out of memory ends: it returns, or `std::bad_alloc`
leaves it with the free store and the object as they are at the throw, or its
behaviour is undefined. -/
inductive Outcome (σ : Type) where
  | returned (s : σ)
  | bad_alloc (s : σ)
  | undefined
deriving DecidableEq

namespace SimpleVector

variable {α : Type}

/-- The constructor `SimpleVector(size_t size, const Type& value = {})`. -/
def sized_construct [Inhabited α] [BEq α] (h : Heap α) (size : Nat) (value : α) :
    Option (Heap α × SimpleVector) :=
  let r := ArrayPtr.create h size
  let v : SimpleVector := { size_ := size, capacity_ := size, array_ := r.2 }
  if value != default then
    match std_fill r.1 v.array_.Get 0 v.size_ value with
    | none => none
    | some h1 => some (h1, v)
  else some (r.1, v)

/-- The sized constructor as the specification words it: the fill pass always runs. -/
def sized_construct_always_fill [Inhabited α] (h : Heap α) (size : Nat) (value : α) :
    Option (Heap α × SimpleVector) :=
  let r := ArrayPtr.create h size
  let v : SimpleVector := { size_ := size, capacity_ := size, array_ := r.2 }
  match std_fill r.1 v.array_.Get 0 v.size_ value with
  | none => none
  | some h1 => some (h1, v)

/-- The constructor `SimpleVector(std::initializer_list<Type> init)`. -/
def init_construct [Inhabited α] (h : Heap α) (init : List α) :
    Option (Heap α × SimpleVector) :=
  let r := ArrayPtr.create h init.length
  let v : SimpleVector :=
    { size_ := init.length, capacity_ := init.length, array_ := r.2 }
  match std_copy_list init v.array_.Get 0 r.1 with
  | none => none
  | some h1 => some (h1, v)

/-- The constructor `SimpleVector(ReserveProxyObj obj)`. -/
def reserve_construct [Inhabited α] (h : Heap α) (obj : ReserveProxyObj) :
    Option (Heap α × SimpleVector) :=
  let r := ArrayPtr.create h obj.capacity_to_reserve
  Resize r.1 { size_ := 0, capacity_ := obj.capacity_to_reserve, array_ := r.2 } 0

/-- The free `operator!=` on two vectors. -/
def operator_ne [LT α] [DecidableRel (fun (x y : α) => x < y)]
    (h : Heap α) (same_object : Bool) (lhs rhs : SimpleVector) : Option Bool :=
  match operator_eq h same_object lhs rhs with
  | none => none
  | some b => some (!b)

/-- The free `operator>` on two vectors. -/
def operator_gt [LT α] [DecidableRel (fun (x y : α) => x < y)]
    (h : Heap α) (lhs rhs : SimpleVector) : Option Bool :=
  operator_lt h rhs lhs

/-- The free `operator<=` on two vectors: `lhs == rhs || lhs < rhs`. -/
def operator_le [LT α] [DecidableRel (fun (x y : α) => x < y)]
    (h : Heap α) (same_object : Bool) (lhs rhs : SimpleVector) : Option Bool :=
  match operator_eq h same_object lhs rhs with
  | none => none
  | some true => some true
  | some false => operator_lt h lhs rhs

/-- The free `operator>=` on two vectors: `lhs == rhs || lhs > rhs`. -/
def operator_ge [LT α] [DecidableRel (fun (x y : α) => x < y)]
    (h : Heap α) (same_object : Bool) (lhs rhs : SimpleVector) : Option Bool :=
  match operator_eq h same_object lhs rhs with
  | none => none
  | some true => some true
  | some false => operator_gt h lhs rhs

/-- What `std::lexicographical_compare` computes on two sequences of values. -/
def lex_less [LT α] [DecidableRel (fun (x y : α) => x < y)] : List α → List α → Bool
  | [], ys => decide (ys.length ≠ 0)
  | _ :: _, [] => false
  | x :: xs, y :: ys =>
    if x < y then true
    else if y < x then false
    else lex_less xs ys

/-- `IncreaseCapacity(value)` when memory may run out: `new_ok` tells whether the
`new Type[new_capacity]{}` of `tmp_array` succeeds. Nothing has been written when it is
evaluated, so a failure leaves with the free store and the members as on entry. -/
def IncreaseCapacity_alloc [Inhabited α] (new_ok : Bool) (h : Heap α) (v : SimpleVector)
    (value : Nat) : Outcome (Heap α × SimpleVector) :=
  if new_ok || max (v.size_ + value) (2 * v.capacity_) == 0 then
    match IncreaseCapacity h v value with
    | some r => Outcome.returned r
    | none => Outcome.undefined
  else Outcome.bad_alloc (h, v)

/-- `PushBack(item)` when memory may run out in its `IncreaseCapacity` call. -/
def PushBack_alloc [Inhabited α] (new_ok : Bool) (h : Heap α) (v : SimpleVector)
    (item : α) : Outcome (Heap α × SimpleVector) :=
  if v.size_ < v.capacity_ then
    match v.array_.write h v.size_ item with
    | none => Outcome.undefined
    | some h1 => Outcome.returned (h1, { v with size_ := v.size_ + 1 })
  else
    match IncreaseCapacity_alloc new_ok h v 1 with
    | Outcome.undefined => Outcome.undefined
    | Outcome.bad_alloc s => Outcome.bad_alloc s
    | Outcome.returned (h1, v1) =>
      match v1.array_.write h1 v1.size_ item with
      | none => Outcome.undefined
      | some h2 => Outcome.returned (h2, { v1 with size_ := v1.size_ + 1 })

/-- `Insert(begin() + index, item)` when memory may run out in its `IncreaseCapacity` call. -/
def Insert_alloc [Inhabited α] (new_ok : Bool) (h : Heap α) (v : SimpleVector)
    (index : Nat) (item : α) : Outcome (Heap α × SimpleVector × Nat) :=
  if index ≤ v.size_ then
    match (if v.size_ = v.capacity_ then IncreaseCapacity_alloc new_ok h v 1
      else Outcome.returned (h, v)) with
    | Outcome.undefined => Outcome.undefined
    | Outcome.bad_alloc (h1, v1) => Outcome.bad_alloc (h1, v1, index)
    | Outcome.returned (h1, v1) =>
      match std_move_backward h1 v1.array_.Get index v1.size_ v1.array_.Get (v1.size_ + 1) with
      | none => Outcome.undefined
      | some h2 =>
        match v1.array_.write h2 index item with
        | none => Outcome.undefined
        | some h3 => Outcome.returned (h3, { v1 with size_ := v1.size_ + 1 }, index)
  else Outcome.undefined

/-- `Resize(new_size)` when memory may run out in its `IncreaseCapacity` call. -/
def Resize_alloc [Inhabited α] (new_ok : Bool) (h : Heap α) (v : SimpleVector)
    (new_size : Nat) : Outcome (Heap α × SimpleVector) :=
  if new_size ≤ v.size_ then Outcome.returned (h, { v with size_ := new_size })
  else if new_size ≤ v.capacity_ then
    match FillDummies h v new_size with
    | none => Outcome.undefined
    | some r => Outcome.returned r
  else
    match IncreaseCapacity_alloc new_ok h v (new_size - v.size_) with
    | Outcome.undefined => Outcome.undefined
    | Outcome.bad_alloc s => Outcome.bad_alloc s
    | Outcome.returned (h1, v1) =>
      match FillDummies h1 v1 new_size with
      | none => Outcome.undefined
      | some r => Outcome.returned r

/-- `Reserve(new_capacity)` when memory may run out in its `IncreaseCapacity` call. -/
def Reserve_alloc [Inhabited α] (new_ok : Bool) (h : Heap α) (v : SimpleVector)
    (new_capacity : Nat) : Outcome (Heap α × SimpleVector) :=
  if new_capacity > v.capacity_ then
    IncreaseCapacity_alloc new_ok h { v with capacity_ := 0 } (new_capacity - v.size_)
  else Outcome.returned (h, v)

/-- Number of elements `IncreaseCapacity` moves during one `PushBack`: none when there
is room, all `size_` elements otherwise. -/
def PushBack_moves (v : SimpleVector) : Nat :=
  if v.size_ < v.capacity_ then 0 else v.size_

/-- Total number of elements moved by reallocation over a run of `PushBack` calls. -/
def PushBackAll_moves [Inhabited α] (h : Heap α) (v : SimpleVector) :
    List α → Option Nat
  | [] => some 0
  | x :: xs =>
    match PushBack h v x with
    | none => none
    | some (h1, v1) =>
      match PushBackAll_moves h1 v1 xs with
      | none => none
      | some m => some (PushBack_moves v + m)

end SimpleVector

namespace SimpleVector

/-- Whether `PushBack` on `v` takes the branch that calls `IncreaseCapacity`. -/
def PushBack_reallocates (v : SimpleVector) : Bool := !decide (v.size_ < v.capacity_)

end SimpleVector

/-- An element type for examples: a record whose `operator==` and `operator!=` look at
the key only, so two values that differ in the payload are not `!=`. -/
structure Keyed where
  key : Nat
  payload : Nat

instance : Inhabited Keyed := ⟨⟨0, 0⟩⟩

instance : BEq Keyed := ⟨fun a b => a.key == b.key⟩

/-! ## The free store -/

namespace Heap

variable {α : Type}

theorem getD_set (h : Heap α) (a b : Nat) (c : Option (List α)) :
    (h.set a c).getD b none =
      if a = b then (if a < h.length then c else none) else h.getD b none := by
  simp only [List.getD_eq_getElem?_getD, List.getElem?_set]
  split_ifs <;> simp

theorem getD_append_one (h : Heap α) (c : Option (List α)) (b : Nat) :
    (h ++ [c]).getD b none =
      if b < h.length then h.getD b none else if b = h.length then c else none := by
  simp only [List.getD_eq_getElem?_getD, List.getElem?_append]
  split_ifs with h1 h2
  · rfl
  · subst h2; simp
  · have : 1 ≤ b - h.length := by omega
    rw [List.getElem?_eq_none (by simpa using this)]
    rfl

theorem lt_length_of_getD {h : Heap α} {a : Nat} {A : List α}
    (hA : h.getD a none = some A) : a < h.length := by
  by_contra hlt
  rw [List.getD_eq_getElem?_getD, List.getElem?_eq_none (by omega)] at hA
  simp at hA

theorem store_spec {h : Heap α} {a : Nat} {A : List α} (hA : h.getD a none = some A)
    {i : Nat} (hi : i < A.length) (x : α) :
    ∃ h1, h.store (some a) i x = some h1 ∧ Updated h h1 a (A.set i x) := by
  refine ⟨h.set a (some (A.set i x)), ?_, ?_, ?_, ?_⟩
  · simp only [store, hA, hi, if_true]
  · simp
  · rw [getD_set]; simp [lt_length_of_getD hA]
  · intro c hc
    rw [getD_set]; simp [Ne.symm hc]

theorem load_spec {h : Heap α} {a : Nat} {A : List α} (hA : h.getD a none = some A)
    (i : Nat) : h.load (some a) i = A[i]? := by
  simp only [load, block, hA]

theorem Updated.andThen {h h1 h2 : Heap α} {a : Nat} {R S : List α}
    (h01 : Updated h h1 a R) (h12 : Updated h1 h2 a S) : Updated h h2 a S :=
  ⟨h12.1.trans h01.1, h12.2.1, fun c hc => (h12.2.2 c hc).trans (h01.2.2 c hc)⟩

end Heap

/-- Copying between two distinct live blocks. -/
theorem std_move_loop_disjoint {α : Type} (n : Nat) :
    ∀ (s d : Nat) (h : Heap α) (a b : Nat) (A B : List α), a ≠ b →
      h.getD a none = some A → h.getD b none = some B →
      s + n ≤ A.length → d + n ≤ B.length →
      ∃ h1 R, std_move_loop n (some a) s (some b) d h = some h1 ∧
        Heap.Updated h h1 b R ∧ R.length = B.length ∧
        ∀ i, R[i]? = if d ≤ i ∧ i < d + n then A[s + (i - d)]? else B[i]? := by
  induction n with
  | zero =>
    intro s d h a b A B _ _ hB _ _
    refine ⟨h, B, rfl, ⟨rfl, hB, fun _ _ => rfl⟩, rfl, ?_⟩
    intro i
    rw [if_neg (by omega)]
  | succ n ih =>
    intro s d h a b A B hab hA hB hs hd
    obtain ⟨x, hx⟩ : ∃ x, A[s]? = some x :=
      ⟨A[s], List.getElem?_eq_getElem (by omega)⟩
    obtain ⟨h1, hst, hu⟩ := Heap.store_spec hB (i := d) (by omega) x
    have hA1 : h1.getD a none = some A := by rw [hu.2.2 a hab]; exact hA
    obtain ⟨h2, R, hrun, hu2, hlen, hR⟩ :=
      ih (s + 1) (d + 1) h1 a b A (B.set d x) hab hA1 hu.2.1
        (by omega) (by simp; omega)
    refine ⟨h2, R, ?_, hu.andThen hu2, by simpa using hlen, ?_⟩
    · simp only [std_move_loop, Heap.load_spec hA, hx, hst]
      exact hrun
    · intro i
      rw [hR i, List.getElem?_set]
      by_cases h1 : d = i
      · subst h1
        rw [if_neg (by omega), if_pos rfl, if_pos (by omega), if_pos (by omega)]
        simp [hx]
      · rw [if_neg h1]
        by_cases h2 : d + 1 ≤ i ∧ i < d + 1 + n
        · rw [if_pos h2, if_pos (by omega)]
          congr 1; omega
        · rw [if_neg h2, if_neg (by omega)]

/-- Shifting a range of one live block one slot to the left. -/
theorem std_move_loop_left {α : Type} (n : Nat) :
    ∀ (d : Nat) (h : Heap α) (a : Nat) (A : List α),
      h.getD a none = some A → d + 1 + n ≤ A.length →
      ∃ h1 R, std_move_loop n (some a) (d + 1) (some a) d h = some h1 ∧
        Heap.Updated h h1 a R ∧ R.length = A.length ∧
        ∀ i, R[i]? = if d ≤ i ∧ i < d + n then A[i + 1]? else A[i]? := by
  induction n with
  | zero =>
    intro d h a A hA _
    refine ⟨h, A, rfl, ⟨rfl, hA, fun _ _ => rfl⟩, rfl, ?_⟩
    intro i
    rw [if_neg (by omega)]
  | succ n ih =>
    intro d h a A hA hd
    obtain ⟨x, hx⟩ : ∃ x, A[d + 1]? = some x :=
      ⟨A[d + 1], List.getElem?_eq_getElem (by omega)⟩
    obtain ⟨h1, hst, hu⟩ := Heap.store_spec hA (i := d) (by omega) x
    obtain ⟨h2, R, hrun, hu2, hlen, hR⟩ :=
      ih (d + 1) h1 a (A.set d x) hu.2.1 (by simp; omega)
    refine ⟨h2, R, ?_, hu.andThen hu2, by simpa using hlen, ?_⟩
    · simp only [std_move_loop, Heap.load_spec hA, hx, hst]
      exact hrun
    · intro i
      simp only [hR i, List.getElem?_set]
      split_ifs <;> first | rfl | (exfalso; omega) | (subst_vars; exact hx.symm)

/-- Shifting a range of one live block one slot to the right, last element first. -/
theorem std_move_backward_loop_right {α : Type} (n : Nat) :
    ∀ (last : Nat) (h : Heap α) (a : Nat) (A : List α),
      h.getD a none = some A → n ≤ last → last + 1 ≤ A.length →
      ∃ h1 R, std_move_backward_loop n (some a) last (some a) (last + 1) h = some h1 ∧
        Heap.Updated h h1 a R ∧ R.length = A.length ∧
        ∀ i, R[i]? = if last - n < i ∧ i ≤ last then A[i - 1]? else A[i]? := by
  induction n with
  | zero =>
    intro last h a A hA _ _
    refine ⟨h, A, rfl, ⟨rfl, hA, fun _ _ => rfl⟩, rfl, ?_⟩
    intro i
    rw [if_neg (by omega)]
  | succ n ih =>
    intro last h a A hA hn hl
    obtain ⟨x, hx⟩ : ∃ x, A[last - 1]? = some x :=
      ⟨A[last - 1], List.getElem?_eq_getElem (by omega)⟩
    obtain ⟨h1, hst, hu⟩ := Heap.store_spec hA (i := last) (by omega) x
    have hl1 : last - 1 + 1 = last := by omega
    obtain ⟨h2, R, hrun, hu2, hlen, hR⟩ :=
      ih (last - 1) h1 a (A.set last x) hu.2.1 (by omega) (by simp; omega)
    refine ⟨h2, R, ?_, hu.andThen hu2, by simpa using hlen, ?_⟩
    · simp only [std_move_backward_loop, Heap.load_spec hA, hx, Nat.add_sub_cancel, hst]
      rw [hl1] at hrun
      exact hrun
    · intro i
      simp only [hR i, List.getElem?_set]
      split_ifs <;> first | rfl | (exfalso; omega) | (subst_vars; exact hx.symm)

/-! ## Vectors: representation lemmas -/

namespace SimpleVector

variable {α : Type}

theorem Frame.refl (h : Heap α) (v : SimpleVector) : Frame h v h v :=
  ⟨le_refl _, fun _ _ _ => rfl, Or.inl rfl⟩

theorem Valid.cases {h : Heap α} {v : SimpleVector} (hv : Valid h v) :
    v.size_ ≤ v.capacity_ ∧
      ((v.array_.raw_ptr_ = none ∧ v.capacity_ = 0) ∨
        ∃ a A, v.array_.raw_ptr_ = some a ∧ h.getD a none = some A ∧
          A.length = v.capacity_) := by
  obtain ⟨h1, h2⟩ := hv
  refine ⟨h1, ?_⟩
  rcases h2 with h2 | h2
  · exact Or.inl h2
  · cases hp : v.array_.raw_ptr_ with
    | none => rw [hp] at h2; simp [Heap.block] at h2
    | some a =>
      rw [hp] at h2
      simp only [Heap.block] at h2
      cases hA : List.getD h a none with
      | none => rw [hA] at h2; simp at h2
      | some A =>
        rw [hA] at h2
        exact Or.inr ⟨a, A, rfl, hA, by simpa using h2⟩

theorem Valid.of_block {h : Heap α} {v : SimpleVector} {a : Nat} {A : List α}
    (hp : v.array_.raw_ptr_ = some a) (hA : h.getD a none = some A)
    (hlen : A.length = v.capacity_) (hs : v.size_ ≤ v.capacity_) : Valid h v :=
  ⟨hs, Or.inr (by simp only [hp, Heap.block, hA, Option.map_some', hlen])⟩

theorem toList_of_block {h : Heap α} {v : SimpleVector} {a : Nat} {A : List α}
    (hp : v.array_.raw_ptr_ = some a) (hA : h.getD a none = some A) :
    toList h v = A.take v.size_ := by
  simp only [toList, hp, Heap.block, hA]

theorem toList_of_null {h : Heap α} {v : SimpleVector}
    (hp : v.array_.raw_ptr_ = none) : toList h v = [] := by
  simp only [toList, hp, Heap.block]

theorem toList_length {h : Heap α} {v : SimpleVector} (hv : Valid h v) :
    (toList h v).length = v.size_ := by
  obtain ⟨hs, hc | ⟨a, A, hp, hA, hlen⟩⟩ := hv.cases
  · rw [toList_of_null hc.1]; simp; omega
  · rw [toList_of_block hp hA]; simp; omega

theorem operator_subscript_eq {h : Heap α} {v : SimpleVector} (hv : Valid h v) (i : Nat) :
    operator_subscript h v i = (toList h v)[i]? := by
  obtain ⟨hs, hc | ⟨a, A, hp, hA, hlen⟩⟩ := hv.cases
  · have : v.size_ = 0 := by omega
    simp [operator_subscript, toList_of_null hc.1, this]
  · rw [toList_of_block hp hA, List.getElem?_take]
    simp only [operator_subscript, ArrayPtr.read, hp, Heap.load_spec hA]

theorem create_of_ne_zero [Inhabited α] (h : Heap α) {n : Nat} (hn : n ≠ 0) :
    ArrayPtr.create h n =
      (h ++ [some (List.replicate n default)], { raw_ptr_ := some h.length }) := by
  simp only [ArrayPtr.create, hn, ne_eq, not_false_eq_true, if_true, Heap.new_array]

/-- Specification of `IncreaseCapacity(k)` for `k > 0`, from any state whose block
holds at least `size_` cells (the capacity field may be anything, as in `Reserve`). -/
theorem IncreaseCapacity_spec [Inhabited α] {h : Heap α} {v : SimpleVector} {k : Nat}
    (hk : 0 < k)
    (hb : (v.array_.raw_ptr_ = none ∧ v.size_ = 0) ∨
      ∃ a A, v.array_.raw_ptr_ = some a ∧ h.getD a none = some A ∧ v.size_ ≤ A.length) :
    ∃ h1, IncreaseCapacity h v k =
        some (h1, { size_ := v.size_, capacity_ := max (v.size_ + k) (2 * v.capacity_),
                    array_ := { raw_ptr_ := some h.length } }) ∧
      h1.length = h.length + 1 ∧
      h1.getD h.length none = some (toList h v ++
        List.replicate (max (v.size_ + k) (2 * v.capacity_) - v.size_) default) ∧
      (∀ c, c < h.length → some c ≠ v.array_.raw_ptr_ → h1.getD c none = h.getD c none) := by
  have hnc : max (v.size_ + k) (2 * v.capacity_) ≠ 0 := by
    have := le_max_left (v.size_ + k) (2 * v.capacity_); omega
  rcases hb with ⟨hp, hs⟩ | ⟨a, A, hp, hA, hs⟩
  · refine ⟨h ++ [some (List.replicate (max (v.size_ + k) (2 * v.capacity_)) default)],
      ?_, by simp, ?_, ?_⟩
    · simp only [IncreaseCapacity, create_of_ne_zero h hnc]
      simp only [ArrayPtr.Get, hp, hs, std_move, Nat.sub_self, std_move_loop,
        ArrayPtr.move_assign, ArrayPtr.destroy, Heap.delete_array]
    · rw [Heap.getD_append_one, if_neg (by omega), if_pos rfl, toList_of_null hp, hs]
      simp
    · intro c hc _
      rw [Heap.getD_append_one, if_pos hc]
  · have ha : a < h.length := Heap.lt_length_of_getD hA
    set nc := max (v.size_ + k) (2 * v.capacity_) with hncdef
    have hle : v.size_ + k ≤ nc := le_max_left _ _
    set h0 : Heap α := h ++ [some (List.replicate nc default)] with hh0
    have hA0 : h0.getD a none = some A := by
      rw [hh0, Heap.getD_append_one, if_pos ha]; exact hA
    have hB0 : h0.getD h.length none = some (List.replicate nc default) := by
      rw [hh0, Heap.getD_append_one, if_neg (by omega), if_pos rfl]
    obtain ⟨h2, R, hrun, hu, hlen, hR⟩ :=
      std_move_loop_disjoint v.size_ 0 0 h0 a h.length A (List.replicate nc default)
        (by omega) hA0 hB0 (by omega) (by simp; omega)
    have hA2 : h2.getD a none = some A := by rw [hu.2.2 a (by omega)]; exact hA0
    refine ⟨h2.set a none, ?_, ?_, ?_, ?_⟩
    · simp only [IncreaseCapacity, ← hncdef, create_of_ne_zero h hnc, ArrayPtr.Get, hp,
        std_move, Nat.sub_zero, ← hh0, hrun, ArrayPtr.move_assign, ArrayPtr.destroy,
        Heap.delete_array, hA2]
    · simp [hu.1, hh0]
    · rw [Heap.getD_set, if_neg (by omega), hu.2.1, toList_of_block hp hA]
      congr 1
      apply List.ext_getElem?
      intro i
      rw [hR i]
      simp only [List.getElem?_append, List.getElem?_take, List.getElem?_replicate,
        List.length_take, Nat.zero_le, true_and, Nat.zero_add, Nat.sub_zero]
      have : min v.size_ A.length = v.size_ := by omega
      rw [this]
      split_ifs <;> first | rfl | (exfalso; omega)
    · intro c hc hne
      have hca : c ≠ a := by
        intro hca; apply hne; rw [hp, hca]
      rw [Heap.getD_set, if_neg (Ne.symm hca), hu.2.2 c (by omega), hh0,
        Heap.getD_append_one, if_pos hc]

end SimpleVector

theorem take_succ_set {α : Type} (A : List α) (s : Nat) (x : α) (hs : s < A.length) :
    (A.set s x).take (s + 1) = A.take s ++ [x] := by
  apply List.ext_getElem?
  intro i
  simp only [List.getElem?_take, List.getElem?_set, List.getElem?_append, List.length_take]
  have hm : min s A.length = s := by omega
  rw [hm]
  by_cases h1 : i < s
  · rw [if_pos (by omega), if_neg (by omega), if_pos h1, if_pos h1]
  · by_cases h2 : i = s
    · subst h2
      rw [if_pos (by omega), if_pos rfl, if_pos hs, if_neg h1]
      simp
    · rw [if_neg (by omega), if_neg h1]
      have : 1 ≤ i - s := by omega
      rw [List.getElem?_eq_none (by simpa using this)]

namespace SimpleVector

variable {α : Type}

/-- Specification of `PushBack(item)`. -/
theorem PushBack_spec [Inhabited α] {h : Heap α} {v : SimpleVector} (hv : Valid h v) (x : α) :
    ∃ h1 v1, PushBack h v x = some (h1, v1) ∧ Valid h1 v1 ∧ Frame h v h1 v1 ∧
      toList h1 v1 = toList h v ++ [x] ∧ v1.size_ = v.size_ + 1 ∧
      v1.capacity_ =
        (if v.size_ < v.capacity_ then v.capacity_
         else max (v.size_ + 1) (2 * v.capacity_)) := by
  obtain ⟨hs, hcase⟩ := hv.cases
  by_cases hlt : v.size_ < v.capacity_
  · rcases hcase with ⟨_, hc⟩ | ⟨a, A, hp, hA, hlen⟩
    · omega
    · obtain ⟨h1, hst, hu⟩ := Heap.store_spec hA (i := v.size_) (by omega) x
      refine ⟨h1, { v with size_ := v.size_ + 1 }, ?_, ?_, ?_, ?_, rfl, ?_⟩
      · simp only [PushBack, if_pos hlt, ArrayPtr.write, hp, hst]
      · exact Valid.of_block (v := { v with size_ := v.size_ + 1 }) hp hu.2.1
          (by simpa using hlen) (by simpa using hlt)
      · exact ⟨le_of_eq hu.1.symm,
          fun c _ hne => hu.2.2 c (fun hca => hne (by rw [hp, hca])), Or.inl rfl⟩
      · rw [toList_of_block (v := { v with size_ := v.size_ + 1 }) hp hu.2.1,
          toList_of_block hp hA]
        exact take_succ_set A v.size_ x (by omega)
      · rw [if_pos hlt]
  · have hb : (v.array_.raw_ptr_ = none ∧ v.size_ = 0) ∨
        ∃ a A, v.array_.raw_ptr_ = some a ∧ h.getD a none = some A ∧ v.size_ ≤ A.length := by
      rcases hcase with ⟨hp, hc⟩ | ⟨a, A, hp, hA, hlen⟩
      · exact Or.inl ⟨hp, by omega⟩
      · exact Or.inr ⟨a, A, hp, hA, by omega⟩
    obtain ⟨h1, hinc, hlen1, hB, hfr⟩ := IncreaseCapacity_spec (k := 1) (by omega) hb
    have hL := toList_length hv
    have hle : v.size_ + 1 ≤ max (v.size_ + 1) (2 * v.capacity_) := le_max_left _ _
    have hh1 : h.length < h1.length := by omega
    obtain ⟨h2, hst, hu⟩ := Heap.store_spec hB (i := v.size_) (by simp; omega) x
    refine ⟨h2, (⟨v.size_ + 1, max (v.size_ + 1) (2 * v.capacity_), ⟨some h.length⟩⟩ :
      SimpleVector), ?_, ?_, ?_, ?_, rfl, ?_⟩
    · simp only [PushBack, if_neg hlt, hinc, ArrayPtr.write, hst]
    · exact Valid.of_block rfl hu.2.1 (by simp; omega) hle
    · refine ⟨by rw [hu.1]; omega, fun c hc hne => ?_, Or.inr (Or.inr ⟨_, rfl, le_refl _⟩)⟩
      rw [hu.2.2 c (by omega)]
      exact hfr c hc hne
    · rw [toList_of_block rfl hu.2.1]
      show List.take (v.size_ + 1) _ = _
      rw [take_succ_set _ _ _ (by simp; omega)]
      congr 1
      rw [List.take_append_of_le_length (by omega), List.take_of_length_le (by omega)]
    · rw [if_neg hlt]

end SimpleVector

theorem getElem?_take_cons_drop {α : Type} (L : List α) (p : Nat) (x : α)
    (hp : p ≤ L.length) (i : Nat) :
    (L.take p ++ x :: L.drop p)[i]? =
      if i < p then L[i]? else if i = p then some x else L[i - 1]? := by
  have hm : min p L.length = p := by omega
  rw [List.getElem?_append, List.length_take, hm]
  by_cases h1 : i < p
  · rw [if_pos h1, if_pos h1, List.getElem?_take, if_pos h1]
  · rw [if_neg h1, if_neg h1]
    by_cases h2 : i = p
    · subst h2
      rw [if_pos rfl, Nat.sub_self, List.getElem?_cons_zero]
    · obtain ⟨k, rfl⟩ : ∃ k, i = p + (k + 1) := ⟨i - p - 1, by omega⟩
      rw [if_neg h2, Nat.add_sub_cancel_left, List.getElem?_cons_succ, List.getElem?_drop]
      rfl

/-- Shape of a block after `Insert` shifted `[p, s)` right and wrote `x` at `p`. -/
theorem insert_shape {α : Type} (B R : List α) (s p : Nat) (x : α) (hp : p ≤ s)
    (hs : s < B.length) (hlen : R.length = B.length)
    (hR : ∀ i, R[i]? = if p < i ∧ i ≤ s then B[i - 1]? else B[i]?) :
    (R.set p x).take (s + 1) = (B.take s).take p ++ x :: (B.take s).drop p := by
  apply List.ext_getElem?
  intro i
  rw [getElem?_take_cons_drop _ _ _ (by simp; omega)]
  simp only [List.getElem?_take, List.getElem?_set, hR i, hlen]
  split_ifs <;> first | rfl | (exfalso; omega)

/-- Shape of a block after `Erase` shifted `[p + 1, s)` left. -/
theorem erase_shape {α : Type} (A R : List α) (s p : Nat) (hp : p < s)
    (hR : ∀ i, R[i]? = if p ≤ i ∧ i < p + (s - (p + 1)) then A[i + 1]? else A[i]?) :
    R.take (s - 1) = (A.take s).take p ++ (A.take s).drop (p + 1) := by
  rw [← List.eraseIdx_eq_take_drop_succ]
  apply List.ext_getElem?
  intro i
  simp only [List.getElem?_eraseIdx, List.getElem?_take, hR i]
  split_ifs <;> first | rfl | (exfalso; omega)

/-- Inserting at `p` and erasing at `p` again gives the list back. -/
theorem take_drop_insert_erase {α : Type} (L : List α) (p : Nat) (x : α) (hp : p ≤ L.length) :
    (L.take p ++ x :: L.drop p).take p ++ (L.take p ++ x :: L.drop p).drop (p + 1) = L := by
  rw [← List.eraseIdx_eq_take_drop_succ]
  apply List.ext_getElem?
  intro i
  simp only [List.getElem?_eraseIdx, getElem?_take_cons_drop L p x hp]
  split_ifs <;> first | rfl | (exfalso; omega)

namespace SimpleVector

variable {α : Type}

/-- Specification of `Erase(begin() + p)`. -/
theorem Erase_spec {h : Heap α} {v : SimpleVector} (hv : Valid h v) {p : Nat}
    (hp : p < v.size_) :
    ∃ h1 v1, Erase h v p = some (h1, v1, p) ∧ Valid h1 v1 ∧ Frame h v h1 v1 ∧
      toList h1 v1 = (toList h v).take p ++ (toList h v).drop (p + 1) ∧
      v1.size_ = v.size_ - 1 ∧ v1.capacity_ = v.capacity_ ∧ v1.array_ = v.array_ := by
  obtain ⟨hs, ⟨_, hc⟩ | ⟨a, A, hpt, hA, hlen⟩⟩ := hv.cases
  · omega
  · obtain ⟨h1, R, hrun, hu, hRlen, hR⟩ :=
      std_move_loop_left (v.size_ - (p + 1)) p h a A hA (by omega)
    refine ⟨h1, { v with size_ := v.size_ - 1 }, ?_, ?_, ?_, ?_, rfl, rfl, rfl⟩
    · simp only [Erase, if_pos hp, ArrayPtr.Get, hpt, std_move, hrun]
    · exact Valid.of_block (v := { v with size_ := v.size_ - 1 }) hpt hu.2.1
        (by simpa [hRlen] using hlen) (by simp; omega)
    · exact ⟨le_of_eq hu.1.symm,
        fun c _ hne => hu.2.2 c (fun hca => hne (by rw [hpt, hca])), Or.inl rfl⟩
    · rw [toList_of_block (v := { v with size_ := v.size_ - 1 }) hpt hu.2.1,
        toList_of_block hpt hA]
      exact erase_shape A R v.size_ p hp hR

/-- Specification of `Insert(begin() + p, item)`. -/
theorem Insert_spec [Inhabited α] {h : Heap α} {v : SimpleVector} (hv : Valid h v) {p : Nat}
    (hp : p ≤ v.size_) (x : α) :
    ∃ h1 v1, Insert h v p x = some (h1, v1, p) ∧ Valid h1 v1 ∧ Frame h v h1 v1 ∧
      toList h1 v1 = (toList h v).take p ++ x :: (toList h v).drop p ∧
      v1.size_ = v.size_ + 1 ∧
      v1.capacity_ =
        (if v.size_ = v.capacity_ then max (v.size_ + 1) (2 * v.capacity_)
         else v.capacity_) := by
  obtain ⟨hs, hcase⟩ := hv.cases
  -- state after the optional growth
  have hgrow : ∃ h0 c b B, (if v.size_ = v.capacity_ then IncreaseCapacity h v 1
        else some (h, v)) = some (h0, (⟨v.size_, c, ⟨some b⟩⟩ : SimpleVector)) ∧
      v.size_ < c ∧ h0.getD b none = some B ∧ B.length = c ∧ B.take v.size_ = toList h v ∧
      Frame h v h0 (⟨v.size_, c, ⟨some b⟩⟩ : SimpleVector) ∧
      c = (if v.size_ = v.capacity_ then max (v.size_ + 1) (2 * v.capacity_)
         else v.capacity_) := by
    by_cases hfull : v.size_ = v.capacity_
    · have hb : (v.array_.raw_ptr_ = none ∧ v.size_ = 0) ∨
          ∃ a A, v.array_.raw_ptr_ = some a ∧ h.getD a none = some A ∧
            v.size_ ≤ A.length := by
        rcases hcase with ⟨hpt, hc⟩ | ⟨a, A, hpt, hA, hlen⟩
        · exact Or.inl ⟨hpt, by omega⟩
        · exact Or.inr ⟨a, A, hpt, hA, by omega⟩
      obtain ⟨h1, hinc, hlen1, hB, hfr⟩ := IncreaseCapacity_spec (k := 1) (by omega) hb
      have hle : v.size_ + 1 ≤ max (v.size_ + 1) (2 * v.capacity_) := le_max_left _ _
      refine ⟨h1, _, h.length, _, by rw [if_pos hfull]; exact hinc, by omega, hB,
        by simp [toList_length hv], ?_, ⟨by omega, hfr,
          Or.inr (Or.inr ⟨_, rfl, le_refl _⟩)⟩, by rw [if_pos hfull]⟩
      rw [List.take_append_of_le_length (by rw [toList_length hv]),
        List.take_of_length_le (by rw [toList_length hv])]
    · rcases hcase with ⟨_, hc⟩ | ⟨a, A, hpt, hA, hlen⟩
      · omega
      · refine ⟨h, v.capacity_, a, A, ?_, by omega, hA, hlen, (toList_of_block hpt hA).symm,
          ⟨le_refl _, fun _ _ _ => rfl, Or.inl hpt.symm⟩, by rw [if_neg hfull]⟩
        rw [if_neg hfull]
        congr 2
        obtain ⟨s, c, ⟨q⟩⟩ := v
        simp only at hpt
        rw [hpt]
  obtain ⟨h0, c, b, B, hg, hsc, hB, hBlen, hBtake, hfr0, hceq⟩ := hgrow
  obtain ⟨h1, R, hrun, hu, hRlen, hR⟩ :=
    std_move_backward_loop_right (v.size_ - p) v.size_ h0 b B hB (by omega) (by omega)
  obtain ⟨h2, hst, hu2⟩ := Heap.store_spec hu.2.1 (i := p) (by omega) x
  have hu02 := hu.andThen hu2
  refine ⟨h2, (⟨v.size_ + 1, c, ⟨some b⟩⟩ : SimpleVector), ?_, ?_, ?_, ?_, rfl, hceq⟩
  · simp only [Insert, if_pos hp, hg, ArrayPtr.Get, std_move_backward, hrun, ArrayPtr.write,
      hst]
  · exact Valid.of_block rfl hu02.2.1 (by simp; omega) hsc
  · refine ⟨by rw [hu02.1]; exact hfr0.1, fun d hd hne => ?_, hfr0.2.2⟩
    have hdb : d ≠ b := by
      intro hdb
      rcases hfr0.2.2 with h3 | h3 | ⟨e, h3, h4⟩
      · exact hne (by rw [← h3, hdb])
      · simp at h3
      · simp only [Option.some.injEq] at h3
        omega
    rw [hu02.2.2 d hdb]
    exact hfr0.2.1 d hd hne
  · rw [toList_of_block rfl hu02.2.1, ← hBtake]
    refine insert_shape B R v.size_ p x hp (by omega) hRlen ?_
    intro i
    rw [hR i]
    have : v.size_ - (v.size_ - p) = p := by omega
    rw [this]

end SimpleVector

namespace SimpleVector

variable {α : Type}

theorem Frame.trans {h h1 h2 : Heap α} {v v1 v2 : SimpleVector}
    (f1 : Frame h v h1 v1) (f2 : Frame h1 v1 h2 v2) : Frame h v h2 v2 := by
  obtain ⟨l1, k1, p1⟩ := f1
  obtain ⟨l2, k2, p2⟩ := f2
  refine ⟨le_trans l1 l2, fun c hc hne => ?_, ?_⟩
  · rw [k2 c (by omega) ?_, k1 c hc hne]
    rcases p1 with p1 | p1 | ⟨e, p1, he⟩
    · rw [p1]; exact hne
    · rw [p1]; simp
    · rw [p1]; simp only [ne_eq, Option.some.injEq]; omega
  · rcases p2 with p2 | p2 | ⟨e, p2, he⟩
    · rw [p2]; exact p1
    · exact Or.inr (Or.inl p2)
    · exact Or.inr (Or.inr ⟨e, p2, by omega⟩)

theorem Valid.backed {h : Heap α} {v : SimpleVector} (hv : Valid h v) :
    (v.array_.raw_ptr_ = none ∧ v.size_ = 0) ∨
      ∃ a A, v.array_.raw_ptr_ = some a ∧ h.getD a none = some A ∧ v.size_ ≤ A.length := by
  obtain ⟨hs, ⟨hpt, hc⟩ | ⟨a, A, hpt, hA, hlen⟩⟩ := hv.cases
  · exact Or.inl ⟨hpt, by omega⟩
  · exact Or.inr ⟨a, A, hpt, hA, by omega⟩

/-- `IncreaseCapacity(k)`, `k > 0`: a valid vector with the same contents in a fresh block. -/
theorem IncreaseCapacity_backed [Inhabited α] {h : Heap α} {v : SimpleVector} {k : Nat}
    (hk : 0 < k)
    (hb : (v.array_.raw_ptr_ = none ∧ v.size_ = 0) ∨
      ∃ a A, v.array_.raw_ptr_ = some a ∧ h.getD a none = some A ∧ v.size_ ≤ A.length) :
    ∃ h1 v1, IncreaseCapacity h v k = some (h1, v1) ∧ Valid h1 v1 ∧ Frame h v h1 v1 ∧
      toList h1 v1 = toList h v ∧ v1.size_ = v.size_ ∧
      v1.capacity_ = max (v.size_ + k) (2 * v.capacity_) := by
  obtain ⟨h1, hinc, hlen1, hB, hfr⟩ := IncreaseCapacity_spec hk hb
  have hle : v.size_ + k ≤ max (v.size_ + k) (2 * v.capacity_) := le_max_left _ _
  have hL : (toList h v).length = v.size_ := by
    rcases hb with ⟨hpt, hs⟩ | ⟨a, A, hpt, hA, hs⟩
    · rw [toList_of_null hpt, hs]; rfl
    · rw [toList_of_block hpt hA]; simp; omega
  refine ⟨h1, _, hinc, Valid.of_block rfl hB (by simp [hL]) (by simp),
    ⟨by omega, hfr, Or.inr (Or.inr ⟨_, rfl, le_refl _⟩)⟩, ?_, rfl, rfl⟩
  rw [toList_of_block rfl hB]
  show List.take v.size_ _ = _
  rw [List.take_append_of_le_length (by omega), List.take_of_length_le (by omega)]

/-- Specification of `Reserve(k)`. -/
theorem Reserve_spec [Inhabited α] {h : Heap α} {v : SimpleVector} (hv : Valid h v) (k : Nat) :
    ∃ h1 v1, Reserve h v k = some (h1, v1) ∧ Valid h1 v1 ∧ Frame h v h1 v1 ∧
      toList h1 v1 = toList h v ∧ v1.size_ = v.size_ ∧
      v1.capacity_ = (if k > v.capacity_ then k else v.capacity_) ∧
      (k ≤ v.capacity_ → h1 = h ∧ v1 = v) := by
  by_cases hk : k > v.capacity_
  · have hs := hv.1
    obtain ⟨h1, v1, hinc, hv1, hfr, hl, hsz, hcap⟩ :=
      IncreaseCapacity_backed (h := h) (v := { v with capacity_ := 0 }) (k := k - v.size_)
        (by omega) hv.backed
    refine ⟨h1, v1, by simp only [Reserve, if_pos hk, hinc], hv1, hfr, hl, hsz, ?_,
      fun hle => by omega⟩
    rw [hcap, if_pos hk]
    simp only [Nat.mul_zero]
    omega
  · exact ⟨h, v, by simp only [Reserve, if_neg hk], hv, Frame.refl h v, rfl, rfl,
      by rw [if_neg hk], fun _ => ⟨rfl, rfl⟩⟩

/-- The loop of `FillDummies(n)` on a vector with room for `n` elements. -/
theorem FillDummies_loop_spec [Inhabited α] (fuel : Nat) :
    ∀ (h : Heap α) (v : SimpleVector) (n : Nat), Valid h v → n ≤ v.capacity_ →
      n - v.size_ ≤ fuel →
      ∃ h1 v1, FillDummies_loop fuel h v n = some (h1, v1) ∧ Valid h1 v1 ∧
        Frame h v h1 v1 ∧
        toList h1 v1 = toList h v ++ List.replicate (n - v.size_) default ∧
        v1.size_ = max n v.size_ ∧ v1.capacity_ = v.capacity_ := by
  induction fuel with
  | zero =>
    intro h v n hv _ hf
    have hge : ¬ v.size_ < n := by omega
    refine ⟨h, v, by simp only [FillDummies_loop, if_neg hge], hv, Frame.refl h v, ?_, ?_, rfl⟩
    · have : n - v.size_ = 0 := by omega
      rw [this]; simp
    · omega
  | succ fuel ih =>
    intro h v n hv hn hf
    by_cases hlt : v.size_ < n
    · obtain ⟨h1, v1, hpush, hv1, hfr1, hl1, hs1, hc1⟩ := PushBack_spec hv (default : α)
      rw [if_pos (by omega)] at hc1
      obtain ⟨h2, v2, hrun, hv2, hfr2, hl2, hs2, hc2⟩ :=
        ih h1 v1 n hv1 (by omega) (by omega)
      refine ⟨h2, v2, by simp only [FillDummies_loop, if_pos hlt, hpush, hrun], hv2,
        hfr1.trans hfr2, ?_, by omega, by omega⟩
      rw [hl2, hl1, hs1, List.append_assoc]
      congr 1
      have : n - v.size_ = (n - (v.size_ + 1)) + 1 := by omega
      rw [this, List.replicate_succ]
      rfl
    · have : n - v.size_ = 0 := by omega
      refine ⟨h, v, by simp only [FillDummies_loop, if_neg hlt], hv, Frame.refl h v, ?_,
        by omega, rfl⟩
      rw [this]; simp

/-- Specification of `Resize(n)`. -/
theorem Resize_spec [Inhabited α] {h : Heap α} {v : SimpleVector} (hv : Valid h v) (n : Nat) :
    ∃ h1 v1, Resize h v n = some (h1, v1) ∧ Valid h1 v1 ∧ Frame h v h1 v1 ∧
      toList h1 v1 = (toList h v).take n ++ List.replicate (n - v.size_) default ∧
      v1.size_ = n ∧
      v1.capacity_ = (if n ≤ v.capacity_ then v.capacity_ else max n (2 * v.capacity_)) := by
  have hs := hv.1
  have hL := toList_length hv
  by_cases h1 : n ≤ v.size_
  · refine ⟨h, { v with size_ := n }, by simp only [Resize, if_pos h1], ?_,
      ⟨le_refl _, fun _ _ _ => rfl, Or.inl rfl⟩, ?_, rfl, by rw [if_pos (by omega)]⟩
    · exact ⟨by show n ≤ v.capacity_; omega, hv.2⟩
    · have : n - v.size_ = 0 := by omega
      rw [this]
      simp only [List.replicate_zero, List.append_nil, toList]
      cases h.block v.array_.raw_ptr_ with
      | none => simp
      | some A => simp [List.take_take, h1]
  · by_cases h2 : n ≤ v.capacity_
    · obtain ⟨h3, v3, hrun, hv3, hfr, hl, hsz, hcap⟩ :=
        FillDummies_loop_spec (n - v.size_) h v n hv h2 (le_refl _)
      refine ⟨h3, v3, by simp only [Resize, if_neg h1, if_pos h2, FillDummies, hrun], hv3,
        hfr, ?_, by omega, by rw [if_pos h2]; exact hcap⟩
      rw [hl, List.take_of_length_le (by omega)]
    · obtain ⟨h3, v3, hinc, hv3, hfr3, hl3, hs3, hc3⟩ :=
        IncreaseCapacity_backed (h := h) (v := v) (k := n - v.size_) (by omega) hv.backed
      have hc3' : v3.capacity_ = max n (2 * v.capacity_) := by
        rw [hc3]; congr 1; omega
      have hnle : n ≤ v3.capacity_ := by rw [hc3']; exact le_max_left _ _
      obtain ⟨h4, v4, hrun, hv4, hfr4, hl4, hs4, hc4⟩ :=
        FillDummies_loop_spec (n - v3.size_) h3 v3 n hv3 hnle (le_refl _)
      refine ⟨h4, v4, by simp only [Resize, if_neg h1, if_neg h2, hinc, FillDummies, hrun],
        hv4, hfr3.trans hfr4, ?_, by omega, by rw [if_neg h2, hc4, hc3']⟩
      rw [hl4, hl3, hs3, List.take_of_length_le (by omega)]

theorem PushBackAll_spec [Inhabited α] (xs : List α) :
    ∀ (h : Heap α) (v : SimpleVector), Valid h v →
      ∃ h1 v1, PushBackAll h v xs = some (h1, v1) ∧ Valid h1 v1 ∧ Frame h v h1 v1 ∧
        toList h1 v1 = toList h v ++ xs ∧ v1.size_ = v.size_ + xs.length := by
  induction xs with
  | nil =>
    intro h v hv
    exact ⟨h, v, rfl, hv, Frame.refl h v, by simp, rfl⟩
  | cons x xs ih =>
    intro h v hv
    obtain ⟨h1, v1, hpush, hv1, hfr1, hl1, hs1, _⟩ := PushBack_spec hv x
    obtain ⟨h2, v2, hrun, hv2, hfr2, hl2, hs2⟩ := ih h1 v1 hv1
    refine ⟨h2, v2, by simp only [PushBackAll, hpush, hrun], hv2, hfr1.trans hfr2, ?_, ?_⟩
    · rw [hl2, hl1]; simp
    · rw [hs2, hs1]; simp; omega

theorem Valid_empty (h : Heap α) : Valid h empty :=
  ⟨le_refl _, Or.inl ⟨rfl, rfl⟩⟩

end SimpleVector

namespace SimpleVector

variable {α : Type}

theorem load_eq_toList {h : Heap α} {v : SimpleVector} (hv : Valid h v) {i : Nat}
    (hi : i < v.size_) : h.load v.array_.raw_ptr_ i = (toList h v)[i]? := by
  have := operator_subscript_eq hv i
  simpa only [operator_subscript, if_pos hi, ArrayPtr.read] using this

/-- Two ranges holding the same values, under an irreflexive `<`: neither is less. -/
theorem std_lexicographical_compare_same [LT α] [DecidableRel (fun (x y : α) => x < y)]
    (hirr : ∀ x : α, ¬ x < x) (h : Heap α) (p1 p2 : Option Nat) (n : Nat) :
    ∀ (f1 f2 : Nat),
      (∀ i, i < n → ∃ x, h.load p1 (f1 + i) = some x ∧ h.load p2 (f2 + i) = some x) →
      std_lexicographical_compare h p1 p2 f1 n f2 n = some false := by
  induction n with
  | zero => intro f1 f2 _; simp [std_lexicographical_compare]
  | succ n ih =>
    intro f1 f2 hld
    obtain ⟨x, hx1, hx2⟩ := hld 0 (by omega)
    rw [Nat.add_zero] at hx1 hx2
    have hrec := ih (f1 + 1) (f2 + 1) (fun i hi => by
      obtain ⟨y, hy1, hy2⟩ := hld (i + 1) (by omega)
      exact ⟨y, by rw [← hy1]; congr 1; omega, by rw [← hy2]; congr 1; omega⟩)
    simp only [std_lexicographical_compare, hx1, hx2, if_neg (hirr x), hrec]

/-- Two valid vectors with the same contents compare equal with `operator==`. -/
theorem operator_eq_of_toList_eq [LT α] [DecidableRel (fun (x y : α) => x < y)]
    (hirr : ∀ x : α, ¬ x < x) {h : Heap α} {a b : SimpleVector} (ha : Valid h a)
    (hb : Valid h b) (hl : toList h a = toList h b) (same : Bool) :
    operator_eq h same a b = some true := by
  have hsz : a.size_ = b.size_ := by
    rw [← toList_length ha, ← toList_length hb, hl]
  have hld : ∀ i, i < a.size_ → ∃ x, h.load a.array_.raw_ptr_ (0 + i) = some x ∧
      h.load b.array_.raw_ptr_ (0 + i) = some x := by
    intro i hi
    have hi' : i < (toList h a).length := by rw [toList_length ha]; exact hi
    refine ⟨(toList h a)[i], ?_, ?_⟩
    · rw [Nat.zero_add, load_eq_toList ha hi]
      exact List.getElem?_eq_getElem hi'
    · rw [Nat.zero_add, load_eq_toList hb (by omega), ← hl]
      exact List.getElem?_eq_getElem hi'
  have hld' : ∀ i, i < a.size_ → ∃ x, h.load b.array_.raw_ptr_ (0 + i) = some x ∧
      h.load a.array_.raw_ptr_ (0 + i) = some x := fun i hi =>
    let ⟨x, h1, h2⟩ := hld i hi
    ⟨x, h2, h1⟩
  have h1 : operator_lt h a b = some false := by
    simp only [operator_lt, ArrayPtr.Get, ← hsz]
    exact std_lexicographical_compare_same hirr h _ _ _ 0 0 hld
  have h2 : operator_lt h b a = some false := by
    simp only [operator_lt, ArrayPtr.Get, ← hsz]
    exact std_lexicographical_compare_same hirr h _ _ _ 0 0 hld'
  cases same with
  | true => simp [operator_eq]
  | false => simp [operator_eq, GetSize, hsz, h1, h2]

/-- A vector whose block is the same in two heaps is the same vector in both. -/
theorem same_of_block_eq (h h1 : Heap α) (w : SimpleVector)
    (hblk : ∀ a, w.array_.raw_ptr_ = some a → h1.getD a none = h.getD a none) :
    toList h1 w = toList h w ∧ (Valid h w → Valid h1 w) := by
  cases hp : w.array_.raw_ptr_ with
  | none =>
    refine ⟨by rw [toList_of_null hp, toList_of_null hp], fun hv => ?_⟩
    simpa only [Valid, hp, Heap.block] using hv
  | some a =>
    have := hblk a hp
    refine ⟨by simp only [toList, hp, Heap.block, this], fun hv => ?_⟩
    simpa only [Valid, hp, Heap.block, this] using hv

/-- A block of the old heap that the call's vector does not own survives the call. -/
theorem Frame.other {h h1 : Heap α} {v v1 w : SimpleVector} (f : Frame h v h1 v1)
    (hw : Valid h w)
    (hne : ∀ a, w.array_.raw_ptr_ = some a → v.array_.raw_ptr_ ≠ some a) :
    toList h1 w = toList h w ∧ Valid h1 w ∧
      ∀ a, w.array_.raw_ptr_ = some a → v1.array_.raw_ptr_ ≠ some a := by
  have hlt : ∀ a, w.array_.raw_ptr_ = some a → a < h.length := by
    intro a hp
    obtain ⟨_, ⟨hn, _⟩ | ⟨b, B, hpb, hB, _⟩⟩ := hw.cases
    · rw [hp] at hn; cases hn
    · rw [hp] at hpb
      cases hpb
      exact Heap.lt_length_of_getD hB
  have hblk : ∀ a, w.array_.raw_ptr_ = some a → h1.getD a none = h.getD a none :=
    fun a hp => f.2.1 a (hlt a hp) (fun heq => hne a hp heq.symm)
  obtain ⟨hl, hval⟩ := same_of_block_eq h h1 w hblk
  refine ⟨hl, hval hw, fun a hp heq => ?_⟩
  rcases f.2.2 with h3 | h3 | ⟨c, h3, hc⟩
  · exact hne a hp (by rw [← h3]; exact heq)
  · rw [h3] at heq; cases heq
  · rw [h3] at heq
    cases heq
    have := hlt a hp
    omega

end SimpleVector

namespace SimpleVector

variable {α : Type}

/-- One mutating call on a valid vector, when it returns, leaves a valid vector and
touches no block but its own. -/
theorem mutate_spec [Inhabited α] {h : Heap α} {v : SimpleVector} (hv : Valid h v)
    (m : Mutation α) {h1 : Heap α} {v1 : SimpleVector}
    (hm : mutate h v m = some (h1, v1)) : Valid h1 v1 ∧ Frame h v h1 v1 := by
  cases m with
  | assign i x =>
    simp only [mutate] at hm
    by_cases hi : i < v.size_
    · obtain ⟨hs, ⟨_, hc⟩ | ⟨a, A, hp, hA, hlen⟩⟩ := hv.cases
      · omega
      · obtain ⟨h2, hst, hu⟩ := Heap.store_spec hA (i := i) (by omega) x
        simp only [assign_subscript, if_pos hi, ArrayPtr.write, hp, hst, Option.some.injEq,
          Prod.mk.injEq] at hm
        obtain ⟨rfl, rfl⟩ := hm
        exact ⟨Valid.of_block hp hu.2.1 (by simpa using hlen) hs,
          le_of_eq hu.1.symm, fun c _ hne => hu.2.2 c (fun hca => hne (by rw [hp, hca])),
          Or.inl rfl⟩
    · simp [assign_subscript, if_neg hi] at hm
  | push_back x =>
    obtain ⟨h2, v2, hpush, hv2, hfr, _⟩ := PushBack_spec hv x
    simp only [mutate, hpush, Option.some.injEq, Prod.mk.injEq] at hm
    obtain ⟨rfl, rfl⟩ := hm
    exact ⟨hv2, hfr⟩
  | pop_back =>
    simp only [mutate, Option.some.injEq, Prod.mk.injEq] at hm
    obtain ⟨rfl, rfl⟩ := hm
    refine ⟨?_, le_refl _, fun _ _ _ => rfl, Or.inl ?_⟩
    · unfold PopBack
      split_ifs
      · exact ⟨by show v.size_ - 1 ≤ v.capacity_; have := hv.1; omega, hv.2⟩
      · exact hv
    · unfold PopBack
      split_ifs <;> rfl
  | insert i x =>
    simp only [mutate] at hm
    by_cases hi : i ≤ v.size_
    · obtain ⟨h2, v2, hins, hv2, hfr, _⟩ := Insert_spec hv hi x
      simp only [hins, Option.some.injEq, Prod.mk.injEq] at hm
      obtain ⟨rfl, rfl⟩ := hm
      exact ⟨hv2, hfr⟩
    · simp [Insert, if_neg hi] at hm
  | erase i =>
    simp only [mutate] at hm
    by_cases hi : i < v.size_
    · obtain ⟨h2, v2, her, hv2, hfr, _⟩ := Erase_spec hv hi
      simp only [her, Option.some.injEq, Prod.mk.injEq] at hm
      obtain ⟨rfl, rfl⟩ := hm
      exact ⟨hv2, hfr⟩
    · simp [Erase, if_neg hi] at hm
  | resize n =>
    obtain ⟨h2, v2, hres, hv2, hfr, _⟩ := Resize_spec hv n
    simp only [mutate, hres, Option.some.injEq, Prod.mk.injEq] at hm
    obtain ⟨rfl, rfl⟩ := hm
    exact ⟨hv2, hfr⟩
  | reserve n =>
    obtain ⟨h2, v2, hres, hv2, hfr, _⟩ := Reserve_spec hv n
    simp only [mutate, hres, Option.some.injEq, Prod.mk.injEq] at hm
    obtain ⟨rfl, rfl⟩ := hm
    exact ⟨hv2, hfr⟩
  | clear =>
    simp only [mutate, Option.some.injEq, Prod.mk.injEq] at hm
    obtain ⟨rfl, rfl⟩ := hm
    exact ⟨⟨Nat.zero_le _, hv.2⟩, le_refl _, fun _ _ _ => rfl, Or.inl rfl⟩

/-- A run of mutating calls on one vector never touches a block owned by another. -/
theorem mutateAll_other [Inhabited α] (ms : List (Mutation α)) :
    ∀ (h : Heap α) (v w : SimpleVector) (h1 : Heap α) (v1 : SimpleVector),
      Valid h v → Valid h w →
      (∀ a, w.array_.raw_ptr_ = some a → v.array_.raw_ptr_ ≠ some a) →
      mutateAll h v ms = some (h1, v1) →
      Valid h1 w ∧ toList h1 w = toList h w := by
  induction ms with
  | nil =>
    intro h v w h1 v1 _ hw _ hrun
    simp only [mutateAll, Option.some.injEq, Prod.mk.injEq] at hrun
    obtain ⟨rfl, rfl⟩ := hrun
    exact ⟨hw, rfl⟩
  | cons m ms ih =>
    intro h v w h1 v1 hv hw hne hrun
    simp only [mutateAll] at hrun
    cases hm : mutate h v m with
    | none => rw [hm] at hrun; cases hrun
    | some r =>
      obtain ⟨h2, v2⟩ := r
      rw [hm] at hrun
      obtain ⟨hv2, hfr⟩ := mutate_spec hv m hm
      obtain ⟨hl, hw2, hne2⟩ := hfr.other hw hne
      obtain ⟨hw3, hl3⟩ := ih h2 v2 w h1 v1 hv2 hw2 hne2 hrun
      exact ⟨hw3, hl3.trans hl⟩

/-- Specification of the copy constructor. -/
theorem copy_construct_spec [Inhabited α] {h : Heap α} {src : SimpleVector}
    (hv : Valid h src) :
    ∃ h1 c, copy_construct h src = some (h1, c) ∧ Valid h1 c ∧
      toList h1 c = toList h src ∧ c.size_ = src.size_ ∧ c.capacity_ = src.size_ ∧
      h.length ≤ h1.length ∧ (∀ a, a < h.length → h1.getD a none = h.getD a none) ∧
      (c.array_.raw_ptr_ = none ∨ c.array_.raw_ptr_ = some h.length) := by
  obtain ⟨hs, hcase⟩ := hv.cases
  by_cases hz : src.size_ = 0
  · refine ⟨h, ⟨0, 0, ⟨none⟩⟩, ?_, ⟨le_refl _, Or.inl ⟨rfl, rfl⟩⟩, ?_, hz.symm, hz.symm,
      le_refl _, fun _ _ => rfl, Or.inl rfl⟩
    · simp only [copy_construct, GetSize, hz, ArrayPtr.create, ne_eq, not_true_eq_false,
        if_false, CopyContainer, std_copy, Nat.sub_self, std_move_loop]
    · have := toList_length hv
      rw [hz] at this
      rw [toList_of_null rfl, List.length_eq_zero.mp this]
  · rcases hcase with ⟨_, hc⟩ | ⟨a, A, hp, hA, hlen⟩
    · omega
    · have ha : a < h.length := Heap.lt_length_of_getD hA
      set h0 : Heap α := h ++ [some (List.replicate src.size_ default)] with hh0
      have hA0 : h0.getD a none = some A := by
        rw [hh0, Heap.getD_append_one, if_pos ha]; exact hA
      have hB0 : h0.getD h.length none = some (List.replicate src.size_ default) := by
        rw [hh0, Heap.getD_append_one, if_neg (by omega), if_pos rfl]
      obtain ⟨h1, R, hrun, hu, hRlen, hR⟩ :=
        std_move_loop_disjoint src.size_ 0 0 h0 a h.length A
          (List.replicate src.size_ default) (by omega) hA0 hB0 (by omega) (by simp)
      have hReq : R = A.take src.size_ := by
        apply List.ext_getElem?
        intro i
        rw [hR i]
        simp only [List.getElem?_take, List.getElem?_replicate, Nat.zero_le, true_and,
          Nat.zero_add, Nat.sub_zero]
        split_ifs <;> rfl
      refine ⟨h1, ⟨src.size_, src.size_, ⟨some h.length⟩⟩, ?_,
        Valid.of_block rfl hu.2.1 (by simpa using hRlen) (le_refl _), ?_, rfl, rfl,
        by rw [hu.1, hh0]; simp, fun b hb => ?_, Or.inr rfl⟩
      · simp only [copy_construct, GetSize, create_of_ne_zero h hz, CopyContainer, std_copy,
          ArrayPtr.Get, hp, Nat.sub_zero, ← hh0, hrun]
      · rw [toList_of_block rfl hu.2.1, toList_of_block hp hA, hReq]
        simp
      · rw [hu.2.2 b (by omega), hh0, Heap.getD_append_one, if_pos hb]

end SimpleVector

/-! ## Contract of the member functions -/

namespace SimpleVector

variable {α : Type}

/-- C1: from an empty vector, a run of `PushBack` calls gives `GetSize()` equal to the
number of calls and `operator[](i)` equal to the `i`-th pushed value; and on any valid
vector `PushBack(x)` appends `x` to the logical contents and adds exactly one to the
size, with or without reallocation. -/
theorem PushBack_appends [Inhabited α] :
    (∀ (h : Heap α) (vs : List α), ∃ h1 v1, PushBackAll h empty vs = some (h1, v1) ∧
      v1.GetSize = vs.length ∧
      ∀ i, i < vs.length → operator_subscript h1 v1 i = vs[i]?) ∧
    (∀ (h : Heap α) (v : SimpleVector) (x : α), Valid h v →
      ∃ h1 v1, PushBack h v x = some (h1, v1) ∧ Valid h1 v1 ∧
        toList h1 v1 = toList h v ++ [x] ∧ v1.GetSize = v.GetSize + 1 ∧
        ∀ i, operator_subscript h1 v1 i = (toList h v ++ [x])[i]?) := by
  constructor
  · intro h vs
    obtain ⟨h1, v1, hrun, hv1, _, hl, hs⟩ := PushBackAll_spec vs h empty (Valid_empty h)
    refine ⟨h1, v1, hrun, by simpa [empty] using hs, fun i _ => ?_⟩
    rw [operator_subscript_eq hv1, hl, toList_of_null rfl]
    rfl
  · intro h v x hv
    obtain ⟨h1, v1, hpush, hv1, _, hl, hs, _⟩ := PushBack_spec hv x
    exact ⟨h1, v1, hpush, hv1, hl, hs, fun i => by rw [operator_subscript_eq hv1, hl]⟩

/-- Instance on a full one-slot vector: the push reallocates. -/
theorem PushBack_appends_witness :
    Valid ([some [7]] : Heap Nat) ⟨1, 1, ⟨some 0⟩⟩ ∧
    ∃ h1 v1, PushBack ([some [7]] : Heap Nat) ⟨1, 1, ⟨some 0⟩⟩ 5 = some (h1, v1) ∧
      Valid h1 v1 ∧ toList h1 v1 = toList ([some [7]] : Heap Nat) ⟨1, 1, ⟨some 0⟩⟩ ++ [5] ∧
      v1.GetSize = GetSize ⟨1, 1, ⟨some 0⟩⟩ + 1 ∧
      ∀ i, operator_subscript h1 v1 i =
        (toList ([some [7]] : Heap Nat) ⟨1, 1, ⟨some 0⟩⟩ ++ [5])[i]? :=
  ⟨by decide, (@PushBack_appends Nat _).2 _ _ 5 (by decide)⟩

/-- C2: `At(i)` reports out-of-range exactly when `i ≥ GetSize()`, in particular at
`size() + k` for every `k`, whatever the capacity; below the size it succeeds with the
element `operator[](i)` returns. -/
theorem At_out_of_range_iff (h : Heap α) (v : SimpleVector) (i : Nat) :
    (At h v i = Checked.out_of_range ↔ i ≥ v.GetSize) ∧
    (∀ k, At h v (v.GetSize + k) = Checked.out_of_range) ∧
    (Valid h v → i < v.GetSize →
      ∃ x, At h v i = Checked.value x ∧ operator_subscript h v i = some x) := by
  refine ⟨?_, ?_, ?_⟩
  · constructor
    · intro hat
      by_contra hlt
      have hlt' : ¬ i ≥ v.size_ := hlt
      simp only [At, if_neg hlt'] at hat
      cases hr : v.array_.read h i with
      | none => rw [hr] at hat; cases hat
      | some x => rw [hr] at hat; cases hat
    · intro hge
      have hge' : i ≥ v.size_ := hge
      simp only [At, if_pos hge']
  · intro k
    have : v.GetSize + k ≥ v.size_ := by simp [GetSize]
    simp only [At, if_pos this]
  · intro hv hi
    have hi' : i < v.size_ := hi
    have hsub := operator_subscript_eq hv i
    have hL := toList_length hv
    obtain ⟨x, hx⟩ : ∃ x, (toList h v)[i]? = some x :=
      ⟨(toList h v)[i], List.getElem?_eq_getElem (by omega)⟩
    rw [hx] at hsub
    refine ⟨x, ?_, hsub⟩
    simp only [operator_subscript, if_pos hi'] at hsub
    simp only [At, if_neg (by omega : ¬ i ≥ v.size_), hsub]

/-- Instance on a vector of size 2 and capacity 3. -/
theorem At_out_of_range_iff_witness :
    ∃ x, At ([some [7, 8, 0]] : Heap Nat) ⟨2, 3, ⟨some 0⟩⟩ 1 = Checked.value x ∧
      operator_subscript ([some [7, 8, 0]] : Heap Nat) ⟨2, 3, ⟨some 0⟩⟩ 1 = some x :=
  (At_out_of_range_iff ([some [7, 8, 0]] : Heap Nat) ⟨2, 3, ⟨some 0⟩⟩ 1).2.2
    (by decide) (by decide)

/-- C3: on a valid vector and for `p ≤ size`, `Insert(begin() + p, x)` returns position
`p`, the contents become the first `p` elements, `x`, then the elements from `p` on in
order, the size grows by exactly one and position `p` holds `x`; with or without
reallocation. -/
theorem Insert_contents [Inhabited α] (h : Heap α) (v : SimpleVector) (p : Nat) (x : α)
    (hv : Valid h v) (hp : p ≤ v.GetSize) :
    ∃ h1 v1, Insert h v p x = some (h1, v1, p) ∧ Valid h1 v1 ∧
      toList h1 v1 = (toList h v).take p ++ x :: (toList h v).drop p ∧
      v1.GetSize = v.GetSize + 1 ∧ operator_subscript h1 v1 p = some x := by
  obtain ⟨h1, v1, hins, hv1, _, hl, hs, _⟩ := Insert_spec hv hp x
  refine ⟨h1, v1, hins, hv1, hl, hs, ?_⟩
  have hL := toList_length hv
  have hp' : p ≤ v.size_ := hp
  rw [operator_subscript_eq hv1, hl, getElem?_take_cons_drop _ _ _ (by omega),
    if_neg (by omega), if_pos rfl]

/-- Instance on a full vector: inserting in the middle reallocates. -/
theorem Insert_contents_witness :
    ∃ h1 v1, Insert ([some [1, 2, 3]] : Heap Nat) ⟨3, 3, ⟨some 0⟩⟩ 1 9 = some (h1, v1, 1) ∧
      Valid h1 v1 ∧
      toList h1 v1 = (toList ([some [1, 2, 3]] : Heap Nat) ⟨3, 3, ⟨some 0⟩⟩).take 1 ++
        9 :: (toList ([some [1, 2, 3]] : Heap Nat) ⟨3, 3, ⟨some 0⟩⟩).drop 1 ∧
      v1.GetSize = GetSize ⟨3, 3, ⟨some 0⟩⟩ + 1 ∧ operator_subscript h1 v1 1 = some 9 :=
  Insert_contents ([some [1, 2, 3]] : Heap Nat) ⟨3, 3, ⟨some 0⟩⟩ 1 9 (by decide) (by decide)

/-- C4: on a valid vector and for `p < size`, `Erase(begin() + p)` returns position `p`,
the contents become the elements before `p` followed by the elements after `p` in
order, the size drops by exactly one, the capacity is unchanged, and when `p` is not
the last index position `p` now holds the former element `p + 1`. -/
theorem Erase_contents (h : Heap α) (v : SimpleVector) (p : Nat)
    (hv : Valid h v) (hp : p < v.GetSize) :
    ∃ h1 v1, Erase h v p = some (h1, v1, p) ∧ Valid h1 v1 ∧
      toList h1 v1 = (toList h v).take p ++ (toList h v).drop (p + 1) ∧
      v1.GetSize = v.GetSize - 1 ∧ v1.GetCapacity = v.GetCapacity ∧
      (p < v.GetSize - 1 → operator_subscript h1 v1 p = operator_subscript h v (p + 1)) := by
  obtain ⟨h1, v1, her, hv1, _, hl, hs, hc, _⟩ := Erase_spec hv hp
  refine ⟨h1, v1, her, hv1, hl, hs, hc, fun _ => ?_⟩
  rw [operator_subscript_eq hv1, operator_subscript_eq hv, hl,
    ← List.eraseIdx_eq_take_drop_succ, List.getElem?_eraseIdx, if_neg (by omega)]

/-- Instance: erasing the middle element of three. -/
theorem Erase_contents_witness :
    ∃ h1 v1, Erase ([some [1, 2, 3, 0]] : Heap Nat) ⟨3, 4, ⟨some 0⟩⟩ 1 = some (h1, v1, 1) ∧
      Valid h1 v1 ∧
      toList h1 v1 = (toList ([some [1, 2, 3, 0]] : Heap Nat) ⟨3, 4, ⟨some 0⟩⟩).take 1 ++
        (toList ([some [1, 2, 3, 0]] : Heap Nat) ⟨3, 4, ⟨some 0⟩⟩).drop (1 + 1) ∧
      v1.GetSize = GetSize ⟨3, 4, ⟨some 0⟩⟩ - 1 ∧
      v1.GetCapacity = GetCapacity ⟨3, 4, ⟨some 0⟩⟩ ∧
      (1 < GetSize ⟨3, 4, ⟨some 0⟩⟩ - 1 → operator_subscript h1 v1 1 =
        operator_subscript ([some [1, 2, 3, 0]] : Heap Nat) ⟨3, 4, ⟨some 0⟩⟩ (1 + 1)) :=
  Erase_contents ([some [1, 2, 3, 0]] : Heap Nat) ⟨3, 4, ⟨some 0⟩⟩ 1 (by decide) (by decide)

/-- C5: on a valid vector and for `p ≤ size`, `Insert` at `p` followed by `Erase` at `p`
both succeed and restore the logical sequence: same size, same element at every index
below the size; `p = size` and the reallocating case included. -/
theorem Insert_Erase_round_trip [Inhabited α] (h : Heap α) (v : SimpleVector) (p : Nat)
    (x : α) (hv : Valid h v) (hp : p ≤ v.GetSize) :
    ∃ h1 v1 h2 v2, Insert h v p x = some (h1, v1, p) ∧ Erase h1 v1 p = some (h2, v2, p) ∧
      toList h2 v2 = toList h v ∧ v2.GetSize = v.GetSize ∧
      ∀ i, i < v.GetSize → operator_subscript h2 v2 i = operator_subscript h v i := by
  obtain ⟨h1, v1, hins, hv1, _, hl1, hs1, _⟩ := Insert_spec hv hp x
  have hp' : p ≤ v.size_ := hp
  obtain ⟨h2, v2, her, hv2, _, hl2, hs2, _, _⟩ := Erase_spec hv1 (p := p) (by omega)
  have hL := toList_length hv
  have hl : toList h2 v2 = toList h v := by
    rw [hl2, hl1]
    exact take_drop_insert_erase _ p x (by omega)
  refine ⟨h1, v1, h2, v2, hins, her, hl, ?_, fun i _ => ?_⟩
  · show v2.size_ = v.size_
    omega
  · rw [operator_subscript_eq hv2, operator_subscript_eq hv, hl]

/-- Instance: insert at the end of a full vector, then erase there. -/
theorem Insert_Erase_round_trip_witness :
    ∃ h1 v1 h2 v2, Insert ([some [1, 2]] : Heap Nat) ⟨2, 2, ⟨some 0⟩⟩ 2 9 = some (h1, v1, 2) ∧
      Erase h1 v1 2 = some (h2, v2, 2) ∧
      toList h2 v2 = toList ([some [1, 2]] : Heap Nat) ⟨2, 2, ⟨some 0⟩⟩ ∧
      v2.GetSize = GetSize ⟨2, 2, ⟨some 0⟩⟩ ∧
      ∀ i, i < GetSize ⟨2, 2, ⟨some 0⟩⟩ → operator_subscript h2 v2 i =
        operator_subscript ([some [1, 2]] : Heap Nat) ⟨2, 2, ⟨some 0⟩⟩ i :=
  Insert_Erase_round_trip ([some [1, 2]] : Heap Nat) ⟨2, 2, ⟨some 0⟩⟩ 2 9
    (by decide) (by decide)

end SimpleVector

namespace SimpleVector

variable {α : Type}

/-- C6: on a valid vector, `Resize(n)` succeeds with `GetSize() = n`; the elements below
`min(size, n)` are unchanged; every element in `[size, n)` is `Type{}`, whatever those
slots held before; the capacity is at least `n`, and unchanged when `n` is within the
old capacity. -/
theorem Resize_contents [Inhabited α] (h : Heap α) (v : SimpleVector) (n : Nat)
    (hv : Valid h v) :
    ∃ h1 v1, Resize h v n = some (h1, v1) ∧ Valid h1 v1 ∧ v1.GetSize = n ∧
      toList h1 v1 = (toList h v).take n ++ List.replicate (n - v.GetSize) default ∧
      (∀ i, i < min v.GetSize n → operator_subscript h1 v1 i = operator_subscript h v i) ∧
      (∀ i, v.GetSize ≤ i → i < n → operator_subscript h1 v1 i = some default) ∧
      n ≤ v1.GetCapacity ∧ (n ≤ v.GetCapacity → v1.GetCapacity = v.GetCapacity) := by
  obtain ⟨h1, v1, hres, hv1, _, hl, hs, hc⟩ := Resize_spec hv n
  have hL := toList_length hv
  refine ⟨h1, v1, hres, hv1, hs, hl, fun i hi => ?_, fun i hi1 hi2 => ?_, ?_, fun hn => ?_⟩
  · have hi' : i < min v.size_ n := hi
    rw [operator_subscript_eq hv1, operator_subscript_eq hv, hl,
      List.getElem?_append_left (by simp; omega), List.getElem?_take, if_pos (by omega)]
  · have hi1' : v.size_ ≤ i := hi1
    rw [operator_subscript_eq hv1, hl,
      List.getElem?_append_right (by simp; omega), List.getElem?_replicate,
      if_pos (by simp [GetSize]; omega)]
  · show n ≤ v1.capacity_
    rw [hc]
    split_ifs with hle
    · exact hle
    · exact le_max_left _ _
  · show v1.capacity_ = v.capacity_
    have hn' : n ≤ v.capacity_ := hn
    rw [hc, if_pos hn']

/-- Instance: regrowth over stale slots left by earlier removals. -/
theorem Resize_contents_witness :
    ∃ h1 v1, Resize ([some [1, 9, 3, 3]] : Heap Nat) ⟨2, 4, ⟨some 0⟩⟩ 4 = some (h1, v1) ∧
      Valid h1 v1 ∧ v1.GetSize = 4 ∧
      toList h1 v1 = (toList ([some [1, 9, 3, 3]] : Heap Nat) ⟨2, 4, ⟨some 0⟩⟩).take 4 ++
        List.replicate (4 - GetSize ⟨2, 4, ⟨some 0⟩⟩) default ∧
      (∀ i, i < min (GetSize ⟨2, 4, ⟨some 0⟩⟩) 4 → operator_subscript h1 v1 i =
        operator_subscript ([some [1, 9, 3, 3]] : Heap Nat) ⟨2, 4, ⟨some 0⟩⟩ i) ∧
      (∀ i, GetSize ⟨2, 4, ⟨some 0⟩⟩ ≤ i → i < 4 →
        operator_subscript h1 v1 i = some default) ∧
      4 ≤ v1.GetCapacity ∧
      (4 ≤ GetCapacity ⟨2, 4, ⟨some 0⟩⟩ → v1.GetCapacity = GetCapacity ⟨2, 4, ⟨some 0⟩⟩) :=
  Resize_contents ([some [1, 9, 3, 3]] : Heap Nat) ⟨2, 4, ⟨some 0⟩⟩ 4 (by decide)

/-- C7: on a valid vector, `Reserve(k)` succeeds, keeps `GetSize()` and every element
below the size, and leaves `GetCapacity() ≥ k`; the capacity never decreases, and when
`k ≤ GetCapacity()` nothing changes at all. -/
theorem Reserve_keeps_contents [Inhabited α] (h : Heap α) (v : SimpleVector) (k : Nat)
    (hv : Valid h v) :
    ∃ h1 v1, Reserve h v k = some (h1, v1) ∧ Valid h1 v1 ∧ v1.GetSize = v.GetSize ∧
      toList h1 v1 = toList h v ∧
      (∀ i, i < v.GetSize → operator_subscript h1 v1 i = operator_subscript h v i) ∧
      k ≤ v1.GetCapacity ∧ v.GetCapacity ≤ v1.GetCapacity ∧
      (k ≤ v.GetCapacity → h1 = h ∧ v1 = v) := by
  obtain ⟨h1, v1, hres, hv1, _, hl, hs, hc, hnop⟩ := Reserve_spec hv k
  refine ⟨h1, v1, hres, hv1, hs, hl, fun i _ => ?_, ?_, ?_, hnop⟩
  · rw [operator_subscript_eq hv1, operator_subscript_eq hv, hl]
  · show k ≤ v1.capacity_
    rw [hc]; split_ifs <;> omega
  · show v.capacity_ ≤ v1.capacity_
    rw [hc]; split_ifs <;> omega

/-- Instance: reserving beyond the capacity of a vector of three. -/
theorem Reserve_keeps_contents_witness :
    ∃ h1 v1, Reserve ([some [1, 2, 3, 0]] : Heap Nat) ⟨3, 4, ⟨some 0⟩⟩ 6 = some (h1, v1) ∧
      Valid h1 v1 ∧ v1.GetSize = GetSize ⟨3, 4, ⟨some 0⟩⟩ ∧
      toList h1 v1 = toList ([some [1, 2, 3, 0]] : Heap Nat) ⟨3, 4, ⟨some 0⟩⟩ ∧
      (∀ i, i < GetSize ⟨3, 4, ⟨some 0⟩⟩ → operator_subscript h1 v1 i =
        operator_subscript ([some [1, 2, 3, 0]] : Heap Nat) ⟨3, 4, ⟨some 0⟩⟩ i) ∧
      6 ≤ v1.GetCapacity ∧ GetCapacity ⟨3, 4, ⟨some 0⟩⟩ ≤ v1.GetCapacity ∧
      (6 ≤ GetCapacity ⟨3, 4, ⟨some 0⟩⟩ →
        h1 = ([some [1, 2, 3, 0]] : Heap Nat) ∧ v1 = ⟨3, 4, ⟨some 0⟩⟩) :=
  Reserve_keeps_contents ([some [1, 2, 3, 0]] : Heap Nat) ⟨3, 4, ⟨some 0⟩⟩ 6 (by decide)

/-- C8, as stated, fails for `Reserve`: on a vector of size 3 and capacity 4,
`Reserve(5)` has to grow the buffer for `5 - 3 = 2` more elements and ends with
capacity 5, not `max(3 + 2, 2 * 4) = 8`. -/
theorem Reserve_growth_counterexample :
    Valid ([some [1, 2, 3, 0]] : Heap Nat) ⟨3, 4, ⟨some 0⟩⟩ ∧
    (Reserve ([some [1, 2, 3, 0]] : Heap Nat) ⟨3, 4, ⟨some 0⟩⟩ 5).map
      (fun r => r.2.GetCapacity) = some 5 ∧
    (Reserve ([some [1, 2, 3, 0]] : Heap Nat) ⟨3, 4, ⟨some 0⟩⟩ 5).map
      (fun r => r.2.GetCapacity) ≠ some (max (3 + (5 - 3)) (2 * 4)) := by
  decide

/-- C8, amended: `IncreaseCapacity(k)` sets the capacity to `max(size_ + k, 2 * capacity_)`
of the fields it finds; so `PushBack` and `Insert` on a full vector give
`max(size + 1, 2 * capacity)`, at least twice the old capacity, and leave the capacity
alone when there is room; `Resize(n)` beyond the capacity gives `max(n, 2 * capacity)`;
and `Reserve(n)` beyond the capacity, which resets `capacity_` to 0 first, gives exactly `n`. -/
theorem growth_policy [Inhabited α] (h : Heap α) (v : SimpleVector) (hv : Valid h v) :
    (∀ k, 0 < k → ∃ h1 v1, IncreaseCapacity h v k = some (h1, v1) ∧
      v1.GetCapacity = max (v.GetSize + k) (2 * v.GetCapacity)) ∧
    (∀ x : α, ∃ h1 v1, PushBack h v x = some (h1, v1) ∧
      (v.GetSize = v.GetCapacity →
        v1.GetCapacity = max (v.GetSize + 1) (2 * v.GetCapacity) ∧
        2 * v.GetCapacity ≤ v1.GetCapacity) ∧
      (v.GetSize < v.GetCapacity → v1.GetCapacity = v.GetCapacity)) ∧
    (∀ (p : Nat) (x : α), p ≤ v.GetSize → ∃ h1 v1, Insert h v p x = some (h1, v1, p) ∧
      (v.GetSize = v.GetCapacity →
        v1.GetCapacity = max (v.GetSize + 1) (2 * v.GetCapacity) ∧
        2 * v.GetCapacity ≤ v1.GetCapacity) ∧
      (v.GetSize < v.GetCapacity → v1.GetCapacity = v.GetCapacity)) ∧
    (∀ n, v.GetCapacity < n → ∃ h1 v1, Resize h v n = some (h1, v1) ∧
      v1.GetCapacity = max n (2 * v.GetCapacity)) ∧
    (∀ n, v.GetCapacity < n → ∃ h1 v1, Reserve h v n = some (h1, v1) ∧
      v1.GetCapacity = n) := by
  refine ⟨fun k hk => ?_, fun x => ?_, fun p x hp => ?_, fun n hn => ?_, fun n hn => ?_⟩
  · obtain ⟨h1, v1, hinc, _, _, _, _, hc⟩ := IncreaseCapacity_backed hk hv.backed
    exact ⟨h1, v1, hinc, hc⟩
  · obtain ⟨h1, v1, hpush, _, _, _, _, hc⟩ := PushBack_spec hv x
    refine ⟨h1, v1, hpush, fun hfull => ?_, fun hlt => ?_⟩
    · have hfull' : v.size_ = v.capacity_ := hfull
      rw [if_neg (by omega)] at hc
      exact ⟨hc, by show 2 * v.capacity_ ≤ v1.capacity_; rw [hc]; exact le_max_right _ _⟩
    · have hlt' : v.size_ < v.capacity_ := hlt
      rw [if_pos hlt'] at hc
      exact hc
  · obtain ⟨h1, v1, hins, _, _, _, _, hc⟩ := Insert_spec hv hp x
    refine ⟨h1, v1, hins, fun hfull => ?_, fun hlt => ?_⟩
    · have hfull' : v.size_ = v.capacity_ := hfull
      rw [if_pos hfull'] at hc
      exact ⟨hc, by show 2 * v.capacity_ ≤ v1.capacity_; rw [hc]; exact le_max_right _ _⟩
    · have hlt' : v.size_ < v.capacity_ := hlt
      rw [if_neg (by omega)] at hc
      exact hc
  · obtain ⟨h1, v1, hres, _, _, _, _, hc⟩ := Resize_spec hv n
    have hn' : v.capacity_ < n := hn
    rw [if_neg (by omega)] at hc
    exact ⟨h1, v1, hres, hc⟩
  · obtain ⟨h1, v1, hres, _, _, _, _, hc, _⟩ := Reserve_spec hv n
    have hn' : v.capacity_ < n := hn
    rw [if_pos (by omega)] at hc
    exact ⟨h1, v1, hres, hc⟩

/-- Instance on a full vector of size 3: growth by 2 gives 6, `Reserve(5)` gives 5. -/
theorem growth_policy_witness :
    (∃ h1 v1,
      IncreaseCapacity ([some [1, 2, 3]] : Heap Nat) ⟨3, 3, ⟨some 0⟩⟩ 2 = some (h1, v1) ∧
      v1.GetCapacity = max (GetSize ⟨3, 3, ⟨some 0⟩⟩ + 2) (2 * GetCapacity ⟨3, 3, ⟨some 0⟩⟩)) ∧
    (∃ h1 v1,
      Reserve ([some [1, 2, 3]] : Heap Nat) ⟨3, 3, ⟨some 0⟩⟩ 5 = some (h1, v1) ∧
      v1.GetCapacity = 5) :=
  ⟨(growth_policy ([some [1, 2, 3]] : Heap Nat) ⟨3, 3, ⟨some 0⟩⟩ (by decide)).1 2
      (by decide),
   (growth_policy ([some [1, 2, 3]] : Heap Nat) ⟨3, 3, ⟨some 0⟩⟩ (by decide)).2.2.2.2 5
      (by decide)⟩

end SimpleVector

namespace SimpleVector

variable {α : Type}

/-- Releasing the block of a valid vector succeeds and touches no other block. -/
theorem delete_array_spec {h : Heap α} {v : SimpleVector} (hv : Valid h v) :
    ∃ h1, h.delete_array v.array_.raw_ptr_ = some h1 ∧ h1.length = h.length ∧
      ∀ c, v.array_.raw_ptr_ ≠ some c → h1.getD c none = h.getD c none := by
  obtain ⟨_, ⟨hp, _⟩ | ⟨a, A, hp, hA, _⟩⟩ := hv.cases
  · exact ⟨h, by simp only [hp, Heap.delete_array], rfl, fun _ _ => rfl⟩
  · refine ⟨h.set a none, by simp only [hp, Heap.delete_array, hA], by simp, fun c hc => ?_⟩
    rw [Heap.getD_set, if_neg (fun hac => hc (by rw [hp, hac]))]

/-- C9: on a valid source (element `<` irreflexive, as `std::lexicographical_compare`
requires), the copy constructor and the copy assignment to a distinct valid vector both
succeed; the copy compares equal to the source with `operator==`, has the size of the
source, the same element at every index below it and capacity equal to that size; the
source keeps its contents; and no run of later mutating calls on the copy changes the
source. -/
theorem copy_equal_and_independent [Inhabited α] [LT α]
    [DecidableRel (fun (x y : α) => x < y)] (hirr : ∀ x : α, ¬ x < x)
    (h : Heap α) (src : SimpleVector) (hv : Valid h src) :
    (∃ h1 c, copy_construct h src = some (h1, c) ∧ Valid h1 c ∧ Valid h1 src ∧
      operator_eq h1 false c src = some true ∧ c.GetSize = src.GetSize ∧
      (∀ i, i < src.GetSize → operator_subscript h1 c i = operator_subscript h src i) ∧
      c.GetCapacity = src.GetSize ∧ toList h1 src = toList h src ∧
      ∀ ms h2 c2, mutateAll h1 c ms = some (h2, c2) →
        Valid h2 src ∧ toList h2 src = toList h src) ∧
    (∀ this : SimpleVector, Valid h this →
      (∀ a, src.array_.raw_ptr_ = some a → this.array_.raw_ptr_ ≠ some a) →
      ∃ h1 c, copy_assign h this src = some (h1, c) ∧ Valid h1 c ∧ Valid h1 src ∧
        operator_eq h1 false c src = some true ∧ c.GetSize = src.GetSize ∧
        (∀ i, i < src.GetSize → operator_subscript h1 c i = operator_subscript h src i) ∧
        c.GetCapacity = src.GetSize ∧ toList h1 src = toList h src ∧
        ∀ ms h2 c2, mutateAll h1 c ms = some (h2, c2) →
          Valid h2 src ∧ toList h2 src = toList h src) := by
  obtain ⟨h1, c, hcopy, hvc, hlc, hsz, hcap, hlen, hold, hfresh⟩ := copy_construct_spec hv
  have hsrc_lt : ∀ a, src.array_.raw_ptr_ = some a → a < h.length := by
    intro a hp
    obtain ⟨_, ⟨hn, _⟩ | ⟨b, B, hpb, hB, _⟩⟩ := hv.cases
    · rw [hp] at hn; cases hn
    · rw [hp] at hpb
      cases hpb
      exact Heap.lt_length_of_getD hB
  have hdisj : ∀ a, src.array_.raw_ptr_ = some a → c.array_.raw_ptr_ ≠ some a := by
    intro a hp heq
    have := hsrc_lt a hp
    rcases hfresh with hf | hf
    · rw [hf] at heq; cases heq
    · rw [hf] at heq
      cases heq
      omega
  obtain ⟨hl1, hv1⟩ := same_of_block_eq h h1 src
      (fun a hp => hold a (hsrc_lt a hp))
  have hv1src := hv1 hv
  constructor
  · refine ⟨h1, c, hcopy, hvc, hv1src,
      operator_eq_of_toList_eq hirr hvc hv1src (hlc.trans hl1.symm) false, hsz,
      fun i _ => ?_, hcap, hl1, fun ms h2 c2 hrun => ?_⟩
    · rw [operator_subscript_eq hvc, operator_subscript_eq hv, hlc]
    · obtain ⟨hv2, hl2⟩ := mutateAll_other ms h1 c src h2 c2 hvc hv1src hdisj hrun
      exact ⟨hv2, hl2.trans hl1⟩
  · intro this hthis hne
    have hthis_lt : ∀ b, this.array_.raw_ptr_ = some b → b < h.length := by
      intro b hp
      obtain ⟨_, ⟨hn, _⟩ | ⟨e, E, hpe, hE, _⟩⟩ := hthis.cases
      · rw [hp] at hn; cases hn
      · rw [hp] at hpe
        cases hpe
        exact Heap.lt_length_of_getD hE
    obtain ⟨_, hv1this⟩ := same_of_block_eq h h1 this
      (fun b hp => hold b (hthis_lt b hp))
    obtain ⟨h2, hdel, hlen2, hkeep⟩ := delete_array_spec (hv1this hthis)
    obtain ⟨hlc2, hvc2⟩ := same_of_block_eq h1 h2 c
      (fun a hp =>
      hkeep a (fun hthisp => by
        have := hthis_lt a hthisp
        rcases hfresh with hf | hf
        · rw [hf] at hp; cases hp
        · rw [hf] at hp
          cases hp
          omega))
    obtain ⟨hls2, hvs2⟩ := same_of_block_eq h1 h2 src
      (fun a hp =>
      hkeep a (hne a hp))
    have hvc2' := hvc2 hvc
    have hvs2' := hvs2 hv1src
    refine ⟨h2, c, ?_, hvc2', hvs2',
      operator_eq_of_toList_eq hirr hvc2' hvs2' (by rw [hlc2, hls2, hlc, hl1]) false, hsz,
      fun i _ => ?_, hcap, hls2.trans hl1, fun ms h3 c3 hrun => ?_⟩
    · simp only [copy_assign, hcopy, swap, ArrayPtr.swap, destroy, ArrayPtr.destroy, hdel]
    · rw [operator_subscript_eq hvc2', operator_subscript_eq hv, hlc2, hlc]
    · obtain ⟨hv3, hl3⟩ := mutateAll_other ms h2 c src h3 c3 hvc2' hvs2' hdisj hrun
      exact ⟨hv3, hl3.trans (hls2.trans hl1)⟩

/-- Instance: copying a vector of size 2 and capacity 3 over the naturals. -/
theorem copy_equal_and_independent_witness :
    ∃ h1 c, copy_construct ([some [1, 2, 0]] : Heap Nat) ⟨2, 3, ⟨some 0⟩⟩ = some (h1, c) ∧
      Valid h1 c ∧ Valid h1 ⟨2, 3, ⟨some 0⟩⟩ ∧
      operator_eq h1 false c ⟨2, 3, ⟨some 0⟩⟩ = some true ∧
      c.GetSize = GetSize ⟨2, 3, ⟨some 0⟩⟩ ∧
      (∀ i, i < GetSize ⟨2, 3, ⟨some 0⟩⟩ → operator_subscript h1 c i =
        operator_subscript ([some [1, 2, 0]] : Heap Nat) ⟨2, 3, ⟨some 0⟩⟩ i) ∧
      c.GetCapacity = GetSize ⟨2, 3, ⟨some 0⟩⟩ ∧
      toList h1 ⟨2, 3, ⟨some 0⟩⟩ = toList ([some [1, 2, 0]] : Heap Nat) ⟨2, 3, ⟨some 0⟩⟩ ∧
      ∀ ms h2 c2, mutateAll h1 c ms = some (h2, c2) →
        Valid h2 ⟨2, 3, ⟨some 0⟩⟩ ∧
        toList h2 ⟨2, 3, ⟨some 0⟩⟩ =
          toList ([some [1, 2, 0]] : Heap Nat) ⟨2, 3, ⟨some 0⟩⟩ :=
  (copy_equal_and_independent (fun x => Nat.lt_irrefl x) ([some [1, 2, 0]] : Heap Nat)
    ⟨2, 3, ⟨some 0⟩⟩ (by decide)).1

/-- C10: on a valid source, move construction and move assignment to a distinct valid
vector both succeed; the destination has the size, the capacity and the contents of the
source, in order, and the source is left with size 0 and capacity 0. -/
theorem move_transfers_contents (h : Heap α) (src : SimpleVector) (hv : Valid h src) :
    (∃ h1 d s, move_construct h src = some (h1, d, s) ∧ Valid h1 d ∧
      d.GetSize = src.GetSize ∧ d.GetCapacity = src.GetCapacity ∧
      toList h1 d = toList h src ∧
      (∀ i, operator_subscript h1 d i = operator_subscript h src i) ∧
      s.GetSize = 0 ∧ s.GetCapacity = 0) ∧
    (∀ dst : SimpleVector, Valid h dst →
      (∀ a, src.array_.raw_ptr_ = some a → dst.array_.raw_ptr_ ≠ some a) →
      ∃ h1 d s, move_assign h dst src = some (h1, d, s) ∧ Valid h1 d ∧
        d.GetSize = src.GetSize ∧ d.GetCapacity = src.GetCapacity ∧
        toList h1 d = toList h src ∧
        (∀ i, operator_subscript h1 d i = operator_subscript h src i) ∧
        s.GetSize = 0 ∧ s.GetCapacity = 0) := by
  have key : ∀ dst : SimpleVector, Valid h dst →
      (∀ a, src.array_.raw_ptr_ = some a → dst.array_.raw_ptr_ ≠ some a) →
      ∃ h1 d s, move_assign h dst src = some (h1, d, s) ∧ Valid h1 d ∧
        d.GetSize = src.GetSize ∧ d.GetCapacity = src.GetCapacity ∧
        toList h1 d = toList h src ∧
        (∀ i, operator_subscript h1 d i = operator_subscript h src i) ∧
        s.GetSize = 0 ∧ s.GetCapacity = 0 := by
    intro dst hdst hne
    obtain ⟨h1, hdel, _, hkeep⟩ := delete_array_spec hdst
    obtain ⟨hl, hval⟩ := same_of_block_eq h h1 src
      (fun a hp => hkeep a (hne a hp))
    have hv1 := hval hv
    refine ⟨h1, src, ⟨0, 0, ⟨dst.array_.raw_ptr_⟩⟩, ?_, hv1, rfl, rfl, hl, fun i => ?_,
      rfl, rfl⟩
    · simp only [move_assign, ArrayPtr.Get, hdel, ArrayPtr.move_assign]
    · rw [operator_subscript_eq hv1, operator_subscript_eq hv, hl]
  refine ⟨?_, key⟩
  have := key {} (Valid_empty h) (fun a _ hc => by cases hc)
  simpa only [move_construct] using this

/-- Instance: move assignment onto a vector that holds a block of its own. -/
theorem move_transfers_contents_witness :
    ∃ h1 d s, move_assign ([some [1, 2, 0], some [5]] : Heap Nat) ⟨1, 1, ⟨some 1⟩⟩
        ⟨2, 3, ⟨some 0⟩⟩ = some (h1, d, s) ∧ Valid h1 d ∧
      d.GetSize = GetSize ⟨2, 3, ⟨some 0⟩⟩ ∧ d.GetCapacity = GetCapacity ⟨2, 3, ⟨some 0⟩⟩ ∧
      toList h1 d = toList ([some [1, 2, 0], some [5]] : Heap Nat) ⟨2, 3, ⟨some 0⟩⟩ ∧
      (∀ i, operator_subscript h1 d i =
        operator_subscript ([some [1, 2, 0], some [5]] : Heap Nat) ⟨2, 3, ⟨some 0⟩⟩ i) ∧
      s.GetSize = 0 ∧ s.GetCapacity = 0 :=
  (move_transfers_contents ([some [1, 2, 0], some [5]] : Heap Nat) ⟨2, 3, ⟨some 0⟩⟩
    (by decide)).2 ⟨1, 1, ⟨some 1⟩⟩ (by decide) (by decide)

end SimpleVector

/-! ## Ownership transfer, clearing, and the failure cases -/

namespace ArrayPtr

/-- C11, as stated, fails for move assignment: when `a` holds block 0 and `b` holds
block 1, after `a = std::move(b)` the source `b` holds block 0, still live, so
`b.Get()` is not null and `b` converts to `true`. -/
theorem move_assign_source_not_empty :
    (ArrayPtr.move_assign ⟨some 0⟩ ⟨some 1⟩).2.Get = some 0 ∧
    (ArrayPtr.move_assign ⟨some 0⟩ ⟨some 1⟩).2.Get ≠ none ∧
    (ArrayPtr.move_assign ⟨some 0⟩ ⟨some 1⟩).2.to_bool = true ∧
    Heap.block ([some [7], some [8]] : Heap Nat)
      (ArrayPtr.move_assign ⟨some 0⟩ ⟨some 1⟩).2.Get = some [7] := by
  decide

/-- C11, amended: the move assignment `a = std::move(b)` exchanges the two raw
pointers, so `a` holds the block `b` held and `b` holds the block `a` held; `b` ends
empty exactly when `a` was empty. The move constructor gives the new object the block
of `b` and leaves `b` with no block. -/
theorem move_assign_exchanges (a b : ArrayPtr) :
    (ArrayPtr.move_assign a b).1.Get = b.Get ∧
    (ArrayPtr.move_assign a b).2.Get = a.Get ∧
    ((ArrayPtr.move_assign a b).2.Get = none ↔ a.Get = none) ∧
    ((ArrayPtr.move_assign a b).2.to_bool = false ↔ a.to_bool = false) ∧
    (ArrayPtr.move_construct b).1.Get = b.Get ∧
    (ArrayPtr.move_construct b).2.Get = none ∧
    (ArrayPtr.move_construct b).2.to_bool = false :=
  ⟨rfl, rfl, Iff.rfl, Iff.rfl, rfl, rfl, rfl⟩

end ArrayPtr

namespace SimpleVector

variable {α : Type}

/-- C18: `Clear()` sets the size to 0 and `PopBack()` takes one off a non-zero size and
changes nothing on an empty vector; both leave the capacity, the buffer pointer and
every cell of the free store as they were, so the elements below the new size are the
same as before. -/
theorem Clear_PopBack_only_size (v : SimpleVector) :
    (Clear v).GetSize = 0 ∧ (Clear v).GetCapacity = v.GetCapacity ∧
    (Clear v).array_ = v.array_ ∧
    (v.GetSize ≠ 0 → (PopBack v).GetSize = v.GetSize - 1) ∧
    (v.GetSize = 0 → PopBack v = v) ∧
    (PopBack v).GetCapacity = v.GetCapacity ∧ (PopBack v).array_ = v.array_ ∧
    (∀ (h : Heap α), h.block (Clear v).array_.Get = h.block v.array_.Get ∧
      h.block (PopBack v).array_.Get = h.block v.array_.Get ∧
      ∀ i, i < (PopBack v).GetSize →
        operator_subscript h (PopBack v) i = operator_subscript h v i) := by
  have hp : (PopBack v).array_ = v.array_ := by
    unfold PopBack; split_ifs <;> rfl
  have hs : (PopBack v).size_ ≤ v.size_ := by
    unfold PopBack; split_ifs
    · exact Nat.sub_le _ _
    · exact le_refl _
  refine ⟨rfl, rfl, rfl, fun hne => ?_, fun hz => ?_, ?_, hp, fun h => ⟨rfl, ?_, fun i hi => ?_⟩⟩
  · have hne' : v.size_ ≠ 0 := hne
    simp only [PopBack, if_pos hne', GetSize]
  · have hz' : ¬ v.size_ ≠ 0 := fun hne => hne hz
    simp only [PopBack, if_neg hz']
  · unfold PopBack; split_ifs <;> rfl
  · rw [hp]
  · have hi' : i < (PopBack v).size_ := hi
    simp only [operator_subscript, if_pos hi', if_pos (lt_of_lt_of_le hi' hs), hp]

/-- Instance: `PopBack` on a vector of size 2 and capacity 4. -/
theorem Clear_PopBack_only_size_witness :
    (PopBack ⟨2, 4, ⟨some 0⟩⟩).GetSize = GetSize ⟨2, 4, ⟨some 0⟩⟩ - 1 ∧
    operator_subscript ([some [1, 9, 3, 3]] : Heap Nat) (PopBack ⟨2, 4, ⟨some 0⟩⟩) 0 =
      operator_subscript ([some [1, 9, 3, 3]] : Heap Nat) ⟨2, 4, ⟨some 0⟩⟩ 0 :=
  ⟨(@Clear_PopBack_only_size Nat ⟨2, 4, ⟨some 0⟩⟩).2.2.2.1 (by decide),
   ((Clear_PopBack_only_size ⟨2, 4, ⟨some 0⟩⟩).2.2.2.2.2.2.2
      ([some [1, 9, 3, 3]] : Heap Nat)).2.2 0 (by decide)⟩

/-- C15 fails for `Reserve`: on a valid vector of size 3 and capacity 4, when the
allocation made by `Reserve(5)` fails, `std::bad_alloc` leaves the call with
`capacity_` already reset to 0, so `GetCapacity()` is 0 instead of 4 and the size
exceeds the capacity. -/
theorem Reserve_bad_alloc_resets_capacity :
    Valid ([some [1, 2, 3, 0]] : Heap Nat) ⟨3, 4, ⟨some 0⟩⟩ ∧
    Reserve_alloc false ([some [1, 2, 3, 0]] : Heap Nat) ⟨3, 4, ⟨some 0⟩⟩ 5 =
      Outcome.bad_alloc ([some [1, 2, 3, 0]], ⟨3, 0, ⟨some 0⟩⟩) ∧
    GetCapacity ⟨3, 0, ⟨some 0⟩⟩ ≠ GetCapacity ⟨3, 4, ⟨some 0⟩⟩ ∧
    ¬ Valid ([some [1, 2, 3, 0]] : Heap Nat) ⟨3, 0, ⟨some 0⟩⟩ := by
  decide

/-- The growth of `PushBack`, `Insert` and `Resize` is strongly safe: when the
allocation fails, `std::bad_alloc` leaves the call with the free store and the vector
exactly as they were. `Reserve` differs only in the capacity field. -/
theorem growth_bad_alloc_state [Inhabited α] (h : Heap α) (v : SimpleVector) :
    (∀ x : α, v.size_ = v.capacity_ →
      PushBack_alloc false h v x = Outcome.bad_alloc (h, v)) ∧
    (∀ (p : Nat) (x : α), p ≤ v.size_ → v.size_ = v.capacity_ →
      Insert_alloc false h v p x = Outcome.bad_alloc (h, v, p)) ∧
    (∀ n, v.size_ ≤ v.capacity_ → v.capacity_ < n →
      Resize_alloc false h v n = Outcome.bad_alloc (h, v)) ∧
    (∀ n, v.size_ ≤ v.capacity_ → v.capacity_ < n →
      Reserve_alloc false h v n = Outcome.bad_alloc (h, { v with capacity_ := 0 })) := by
  have hfail : ∀ (w : SimpleVector) (k : Nat), 0 < k →
      IncreaseCapacity_alloc false h w k = Outcome.bad_alloc (h, w) := by
    intro w k hk
    have hne : max (w.size_ + k) (2 * w.capacity_) ≠ 0 := by
      have := le_max_left (w.size_ + k) (2 * w.capacity_); omega
    simp [IncreaseCapacity_alloc, hne]
  refine ⟨fun x hfull => ?_, fun p x hp hfull => ?_, fun n hs hn => ?_, fun n hs hn => ?_⟩
  · simp only [PushBack_alloc, if_neg (by omega : ¬ v.size_ < v.capacity_),
      hfail v 1 (by omega)]
  · simp only [Insert_alloc, if_pos hp, if_pos hfull, hfail v 1 (by omega)]
  · simp only [Resize_alloc, if_neg (by omega : ¬ n ≤ v.size_),
      if_neg (by omega : ¬ n ≤ v.capacity_), hfail v (n - v.size_) (by omega)]
  · simp only [Reserve_alloc, if_pos (by omega : n > v.capacity_)]
    exact hfail _ (n - v.size_) (by omega)

/-- C19 fails for move assignment: with `dst` holding block 1 and `src` holding block 0,
after `dst = std::move(src)` the source has size 0 and capacity 0 but `array_` still
points to block 1, which has been deleted; the source does not satisfy the
representation invariant and its destructor deletes the block a second time. -/
theorem move_assign_source_dangling :
    Valid ([some [1, 2, 0], some [5]] : Heap Nat) ⟨1, 1, ⟨some 1⟩⟩ ∧
    Valid ([some [1, 2, 0], some [5]] : Heap Nat) ⟨2, 3, ⟨some 0⟩⟩ ∧
    move_assign ([some [1, 2, 0], some [5]] : Heap Nat) ⟨1, 1, ⟨some 1⟩⟩ ⟨2, 3, ⟨some 0⟩⟩ =
      some ([some [1, 2, 0], none], ⟨2, 3, ⟨some 0⟩⟩, ⟨0, 0, ⟨some 1⟩⟩) ∧
    GetCapacity ⟨0, 0, ⟨some 1⟩⟩ = 0 ∧
    (⟨0, 0, ⟨some 1⟩⟩ : SimpleVector).array_.Get ≠ none ∧
    ¬ Valid ([some [1, 2, 0], none] : Heap Nat) ⟨0, 0, ⟨some 1⟩⟩ ∧
    destroy ([some [1, 2, 0], none] : Heap Nat) ⟨0, 0, ⟨some 1⟩⟩ = none ∧
    PushBack ([some [1, 2, 0], none] : Heap Nat) ⟨0, 0, ⟨some 1⟩⟩ 7 = none := by
  decide

end SimpleVector

/-! ## Comparison operators -/

namespace SimpleVector

variable {α : Type}

/-- The comparison loop over two ranges of the free store computes `lex_less` of the
values they hold. -/
theorem std_lexicographical_compare_eq_lex_less [LT α]
    [DecidableRel (fun (x y : α) => x < y)] (h : Heap α) (p1 p2 : Option Nat)
    (L1 : List α) :
    ∀ (L2 : List α) (f1 f2 : Nat),
      (∀ i, i < L1.length → h.load p1 (f1 + i) = L1[i]?) →
      (∀ i, i < L2.length → h.load p2 (f2 + i) = L2[i]?) →
      std_lexicographical_compare h p1 p2 f1 L1.length f2 L2.length =
        some (lex_less L1 L2) := by
  induction L1 with
  | nil =>
    intro L2 f1 f2 _ _
    simp only [List.length_nil, std_lexicographical_compare, lex_less]
  | cons x xs ih =>
    intro L2 f1 f2 h1 h2
    cases L2 with
    | nil => simp only [List.length_cons, List.length_nil, std_lexicographical_compare, lex_less]
    | cons y ys =>
      have hx : h.load p1 f1 = some x := by
        have := h1 0 (by simp)
        simpa using this
      have hy : h.load p2 f2 = some y := by
        have := h2 0 (by simp)
        simpa using this
      have hrec := ih ys (f1 + 1) (f2 + 1)
        (fun i hi => by
          have := h1 (i + 1) (by simp; omega)
          rw [List.getElem?_cons_succ] at this
          rw [← this]; congr 1; omega)
        (fun i hi => by
          have := h2 (i + 1) (by simp; omega)
          rw [List.getElem?_cons_succ] at this
          rw [← this]; congr 1; omega)
      simp only [List.length_cons, std_lexicographical_compare, hx, hy, lex_less, hrec]
      split_ifs <;> rfl

/-- On valid vectors `operator<` is `lex_less` of the logical contents. -/
theorem operator_lt_eq_lex_less [LT α] [DecidableRel (fun (x y : α) => x < y)]
    {h : Heap α} {a b : SimpleVector} (ha : Valid h a) (hb : Valid h b) :
    operator_lt h a b = some (lex_less (toList h a) (toList h b)) := by
  have h1 := std_lexicographical_compare_eq_lex_less h a.array_.raw_ptr_ b.array_.raw_ptr_
    (toList h a) (toList h b) 0 0
    (fun i hi => by
      rw [Nat.zero_add]
      exact load_eq_toList ha (by rw [← toList_length ha]; exact hi))
    (fun i hi => by
      rw [Nat.zero_add]
      exact load_eq_toList hb (by rw [← toList_length hb]; exact hi))
  rw [toList_length ha, toList_length hb] at h1
  exact h1

/-- What `lex_less` decides: the first position where the two sequences are not
equivalent has the smaller element on the left, or the left sequence is a proper prefix
up to equivalence. -/
theorem lex_less_iff [LT α] [DecidableRel (fun (x y : α) => x < y)] (L1 : List α) :
    ∀ L2 : List α, lex_less L1 L2 = true ↔
      (∃ (j : Nat) (x y : α), L1[j]? = some x ∧ L2[j]? = some y ∧ x < y ∧
        ∀ i : Nat, i < j → ∀ u w : α, L1[i]? = some u → L2[i]? = some w → ¬ u < w ∧ ¬ w < u) ∨
      (L1.length < L2.length ∧
        ∀ (i : Nat) (u w : α), L1[i]? = some u → L2[i]? = some w → ¬ u < w ∧ ¬ w < u) := by
  induction L1 with
  | nil =>
    intro L2
    simp only [lex_less, List.length_nil, decide_eq_true_eq]
    constructor
    · intro hne
      exact Or.inr ⟨by omega, fun i u w hu => by simp at hu⟩
    · rintro (⟨j, x, y, hx, _⟩ | ⟨hlt, _⟩)
      · simp at hx
      · omega
  | cons x xs ih =>
    intro L2
    cases L2 with
    | nil =>
      simp only [lex_less, Bool.false_eq_true, false_iff]
      rintro (⟨j, _, y, _, hy, _⟩ | ⟨hlt, _⟩)
      · simp at hy
      · simp at hlt
    | cons y ys =>
      by_cases hxy : x < y
      · simp only [lex_less, if_pos hxy, true_iff]
        exact Or.inl ⟨0, x, y, List.getElem?_cons_zero, List.getElem?_cons_zero, hxy,
          fun i hi => by omega⟩
      · by_cases hyx : y < x
        · simp only [lex_less, if_neg hxy, if_pos hyx, Bool.false_eq_true, false_iff]
          rintro (⟨j, u, w, hu, hw, huw, hall⟩ | ⟨_, hall⟩)
          · cases j with
            | zero =>
              simp only [List.getElem?_cons_zero, Option.some.injEq] at hu hw
              subst hu; subst hw
              exact hxy huw
            | succ j =>
              exact (hall 0 (by omega) x y List.getElem?_cons_zero
                List.getElem?_cons_zero).2 hyx
          · exact (hall 0 x y List.getElem?_cons_zero List.getElem?_cons_zero).2 hyx
        · simp only [lex_less, if_neg hxy, if_neg hyx]
          rw [ih ys]
          constructor
          · rintro (⟨j, u, w, hu, hw, huw, hall⟩ | ⟨hlt, hall⟩)
            · refine Or.inl ⟨j + 1, u, w, by simpa using hu, by simpa using hw, huw, ?_⟩
              intro i hi u' w' hu' hw'
              cases i with
              | zero =>
                simp only [List.getElem?_cons_zero, Option.some.injEq] at hu' hw'
                subst hu'; subst hw'
                exact ⟨hxy, hyx⟩
              | succ i =>
                exact hall i (by omega) u' w' (by simpa using hu') (by simpa using hw')
            · refine Or.inr ⟨by simpa using hlt, ?_⟩
              intro i u' w' hu' hw'
              cases i with
              | zero =>
                simp only [List.getElem?_cons_zero, Option.some.injEq] at hu' hw'
                subst hu'; subst hw'
                exact ⟨hxy, hyx⟩
              | succ i => exact hall i u' w' (by simpa using hu') (by simpa using hw')
          · rintro (⟨j, u, w, hu, hw, huw, hall⟩ | ⟨hlt, hall⟩)
            · cases j with
              | zero =>
                simp only [List.getElem?_cons_zero, Option.some.injEq] at hu hw
                subst hu; subst hw
                exact absurd huw hxy
              | succ j =>
                refine Or.inl ⟨j, u, w, by simpa using hu, by simpa using hw, huw, ?_⟩
                intro i hi u' w' hu' hw'
                exact hall (i + 1) (by omega) u' w' (by simpa using hu') (by simpa using hw')
            · refine Or.inr ⟨by simpa using hlt, ?_⟩
              intro i u' w' hu' hw'
              exact hall (i + 1) u' w' (by simpa using hu') (by simpa using hw')

theorem lex_less_irrefl [LT α] [DecidableRel (fun (x y : α) => x < y)]
    (hirr : ∀ x : α, ¬ x < x) (L : List α) : lex_less L L = false := by
  induction L with
  | nil => simp [lex_less]
  | cons x xs ih => simp only [lex_less, if_neg (hirr x), ih]

theorem lex_less_asymm [LinearOrder α] (L1 : List α) :
    ∀ L2 : List α, lex_less L1 L2 = true → lex_less L2 L1 = false := by
  induction L1 with
  | nil =>
    intro L2 h12
    cases L2 with
    | nil => simp [lex_less]
    | cons y ys => simp [lex_less]
  | cons x xs ih =>
    intro L2 h12
    cases L2 with
    | nil => simp [lex_less] at h12
    | cons y ys =>
      by_cases hxy : x < y
      · simp only [lex_less, if_neg (not_lt_of_lt hxy), if_pos hxy]
      · by_cases hyx : y < x
        · simp [lex_less, hxy, hyx] at h12
        · simp only [lex_less, if_neg hxy, if_neg hyx] at h12 ⊢
          exact ih ys h12

theorem lex_less_total [LinearOrder α] (L1 : List α) :
    ∀ L2 : List α, lex_less L1 L2 = true ∨ L1 = L2 ∨ lex_less L2 L1 = true := by
  induction L1 with
  | nil =>
    intro L2
    cases L2 with
    | nil => exact Or.inr (Or.inl rfl)
    | cons y ys => exact Or.inl (by simp [lex_less])
  | cons x xs ih =>
    intro L2
    cases L2 with
    | nil => exact Or.inr (Or.inr (by simp [lex_less]))
    | cons y ys =>
      by_cases hxy : x < y
      · exact Or.inl (by simp only [lex_less, if_pos hxy])
      · by_cases hyx : y < x
        · exact Or.inr (Or.inr (by simp only [lex_less, if_pos hyx]))
        · have hxe : x = y := le_antisymm (not_lt.mp hyx) (not_lt.mp hxy)
          subst hxe
          simp only [lex_less, if_neg hxy]
          rcases ih ys with h1 | h1 | h1
          · exact Or.inl h1
          · exact Or.inr (Or.inl (by rw [h1]))
          · exact Or.inr (Or.inr h1)

end SimpleVector

/-- Copying the elements of an initializer list into one live block. -/
theorem std_copy_list_spec {α : Type} (L : List α) :
    ∀ (d : Nat) (h : Heap α) (b : Nat) (B : List α),
      h.getD b none = some B → d + L.length ≤ B.length →
      ∃ h1 R, std_copy_list L (some b) d h = some h1 ∧
        Heap.Updated h h1 b R ∧ R.length = B.length ∧
        ∀ j, R[j]? = if d ≤ j ∧ j < d + L.length then L[j - d]? else B[j]? := by
  induction L with
  | nil =>
    intro d h b B hB _
    refine ⟨h, B, rfl, ⟨rfl, hB, fun _ _ => rfl⟩, rfl, ?_⟩
    intro j
    rw [if_neg (by simp)]
  | cons x xs ih =>
    intro d h b B hB hd
    simp only [List.length_cons] at hd
    obtain ⟨h1, hst, hu⟩ := Heap.store_spec hB (i := d) (by omega) x
    obtain ⟨h2, R, hrun, hu2, hlen, hR⟩ :=
      ih (d + 1) h1 b (B.set d x) hu.2.1 (by simp; omega)
    refine ⟨h2, R, ?_, hu.andThen hu2, by simpa using hlen, ?_⟩
    · simp only [std_copy_list, hst]
      exact hrun
    · intro j
      simp only [hR j, List.getElem?_set, List.length_cons]
      by_cases h1 : d = j
      · subst h1
        rw [if_neg (by omega), if_pos rfl, if_pos (by omega), if_pos (by omega), Nat.sub_self,
          List.getElem?_cons_zero]
      · by_cases h2 : d + 1 ≤ j ∧ j < d + 1 + xs.length
        · rw [if_pos h2, if_pos (by omega)]
          obtain ⟨k, rfl⟩ : ∃ k, j = d + (k + 1) := ⟨j - d - 1, by omega⟩
          rw [Nat.add_sub_cancel_left, List.getElem?_cons_succ]
          congr 1
          omega
        · rw [if_neg h2, if_neg h1, if_neg (by omega)]

namespace SimpleVector

variable {α : Type}

/-- Specification of the initializer-list constructor. -/
theorem init_construct_spec [Inhabited α] (h : Heap α) (L : List α) :
    ∃ h1 w, init_construct h L = some (h1, w) ∧ Valid h1 w ∧
      w.size_ = L.length ∧ w.capacity_ = L.length ∧ toList h1 w = L ∧
      h.length ≤ h1.length ∧ (∀ a, a < h.length → h1.getD a none = h.getD a none) ∧
      (w.array_.raw_ptr_ = none ∨ w.array_.raw_ptr_ = some h.length) := by
  by_cases hz : L.length = 0
  · have hL : L = [] := List.length_eq_zero.mp hz
    subst hL
    refine ⟨h, ⟨0, 0, ⟨none⟩⟩, ?_, ⟨le_refl _, Or.inl ⟨rfl, rfl⟩⟩, rfl, rfl,
      toList_of_null rfl, le_refl _, fun _ _ => rfl, Or.inl rfl⟩
    simp only [init_construct, List.length_nil, ArrayPtr.create, ne_eq, not_true_eq_false,
      if_false, std_copy_list]
  · set h0 : Heap α := h ++ [some (List.replicate L.length default)] with hh0
    have hB0 : h0.getD h.length none = some (List.replicate L.length default) := by
      rw [hh0, Heap.getD_append_one, if_neg (by omega), if_pos rfl]
    obtain ⟨h1, R, hrun, hu, hRlen, hR⟩ :=
      std_copy_list_spec L 0 h0 h.length (List.replicate L.length default) hB0 (by simp)
    have hReq : R = L := by
      apply List.ext_getElem?
      intro j
      rw [hR j]
      simp only [List.getElem?_replicate, Nat.zero_le, true_and, Nat.zero_add, Nat.sub_zero]
      split_ifs with hj
      · rfl
      · exact (List.getElem?_eq_none (by omega)).symm
    refine ⟨h1, ⟨L.length, L.length, ⟨some h.length⟩⟩, ?_,
      Valid.of_block rfl hu.2.1 (by simpa using hRlen) (le_refl _), rfl, rfl, ?_,
      by rw [hu.1, hh0]; simp, fun a ha => ?_, Or.inr rfl⟩
    · simp only [init_construct, create_of_ne_zero h hz, ArrayPtr.Get, ← hh0, hrun]
    · rw [toList_of_block rfl hu.2.1, hReq]
      simp
    · rw [hu.2.2 a (by omega), hh0, Heap.getD_append_one, if_pos ha]

/-- Two vectors built one after the other from initializer lists. -/
theorem init_construct_pair [Inhabited α] (h : Heap α) (L1 L2 : List α) :
    ∃ h1 a h2 b, init_construct h L1 = some (h1, a) ∧ init_construct h1 L2 = some (h2, b) ∧
      Valid h2 a ∧ Valid h2 b ∧ toList h2 a = L1 ∧ toList h2 b = L2 := by
  obtain ⟨h1, a, e1, hva, _, _, hla, _, _, _⟩ := init_construct_spec h L1
  obtain ⟨h2, b, e2, hvb, _, _, hlb, _, hold, _⟩ := init_construct_spec h1 L2
  have hlt : ∀ c, a.array_.raw_ptr_ = some c → c < h1.length := by
    intro c hp
    obtain ⟨_, ⟨hn, _⟩ | ⟨e, E, hpe, hE, _⟩⟩ := hva.cases
    · rw [hp] at hn; cases hn
    · rw [hp] at hpe
      cases hpe
      exact Heap.lt_length_of_getD hE
  obtain ⟨hl, hval⟩ := same_of_block_eq h1 h2 a (fun c hp => hold c (hlt c hp))
  exact ⟨h1, a, h2, b, e1, e2, hval hva, hvb, hl.trans hla, hlb⟩

theorem lex_less_eq_iff [LinearOrder α] (L1 L2 : List α) :
    (lex_less L1 L2 = false ∧ lex_less L2 L1 = false) ↔ L1 = L2 := by
  constructor
  · rintro ⟨h1, h2⟩
    rcases lex_less_total L1 L2 with h | h | h
    · rw [h1] at h; cases h
    · exact h
    · rw [h2] at h; cases h
  · rintro rfl
    exact ⟨lex_less_irrefl (fun x => lt_irrefl x) L1, lex_less_irrefl (fun x => lt_irrefl x) L1⟩

/-- On valid vectors over a linear order `operator==` decides equality of the logical
contents. -/
theorem operator_eq_eq_decide [LinearOrder α] {h : Heap α} {a b : SimpleVector}
    (ha : Valid h a) (hb : Valid h b) (same : Bool) (hsame : same = true → a = b) :
    operator_eq h same a b = some (decide (toList h a = toList h b)) := by
  cases same with
  | true =>
    have := hsame rfl
    subst this
    simp [operator_eq]
  | false =>
    by_cases hsz : a.size_ = b.size_
    · have hiff := lex_less_eq_iff (toList h a) (toList h b)
      simp only [operator_eq, GetSize, hsz, ne_eq, not_true_eq_false, if_false,
        operator_lt_eq_lex_less ha hb, operator_lt_eq_lex_less hb ha]
      by_cases heq : toList h a = toList h b
      · obtain ⟨h1, h2⟩ := hiff.mpr heq
        simp only [h1, h2]
        simp [heq]
      · cases h1 : lex_less (toList h a) (toList h b) with
        | true => simp [heq]
        | false =>
          cases h2 : lex_less (toList h b) (toList h a) with
          | true => simp [heq]
          | false => exact absurd (hiff.mp ⟨h1, h2⟩) heq
    · have hne : toList h a ≠ toList h b := by
        intro heq
        apply hsz
        rw [← toList_length ha, ← toList_length hb, heq]
      simp [operator_eq, GetSize, hsz, hne]

theorem toList_eq_iff {h : Heap α} {a b : SimpleVector} (ha : Valid h a) (hb : Valid h b) :
    toList h a = toList h b ↔
      a.size_ = b.size_ ∧
        ∀ i, i < a.size_ → operator_subscript h a i = operator_subscript h b i := by
  constructor
  · intro heq
    refine ⟨by rw [← toList_length ha, ← toList_length hb, heq], fun i _ => ?_⟩
    rw [operator_subscript_eq ha, operator_subscript_eq hb, heq]
  · rintro ⟨hsz, hall⟩
    apply List.ext_getElem?
    intro i
    by_cases hi : i < a.size_
    · rw [← operator_subscript_eq ha, ← operator_subscript_eq hb]
      exact hall i hi
    · rw [List.getElem?_eq_none (by rw [toList_length ha]; omega),
        List.getElem?_eq_none (by rw [toList_length hb]; omega)]

end SimpleVector

namespace SimpleVector

variable {α : Type}

/-- C12: on valid vectors over a linearly ordered element type, `a == b` is true exactly
when the sizes are equal and `a[i]`, `b[i]` are equal for every `i` below the size; the
result is a function of the logical contents alone, so vectors with the same contents
in other blocks, with other capacities or other cells beyond the size, compare the same. -/
theorem operator_eq_iff_same_elements [LinearOrder α] (h : Heap α) (a b : SimpleVector)
    (same : Bool) (ha : Valid h a) (hb : Valid h b) (hsame : same = true → a = b) :
    operator_eq h same a b = some (decide (toList h a = toList h b)) ∧
    (operator_eq h same a b = some true ↔
      a.GetSize = b.GetSize ∧
        ∀ i, i < a.GetSize → operator_subscript h a i = operator_subscript h b i) ∧
    (∀ (g : Heap α) (c d : SimpleVector), Valid g c → Valid g d →
      toList g c = toList h a → toList g d = toList h b →
      operator_eq g false c d = operator_eq h same a b) := by
  have hmain := operator_eq_eq_decide ha hb same hsame
  refine ⟨hmain, ?_, fun g c d hc hd hca hdb => ?_⟩
  · have hl := toList_eq_iff ha hb
    simp only [GetSize]
    rw [hmain, ← hl]
    simp
  · rw [hmain, operator_eq_eq_decide hc hd false (fun hf => by cases hf), hca, hdb]

/-- Instance: two integer vectors with contents `[1, 2]`, capacities 3 and 2, and
different cells beyond the size. -/
theorem operator_eq_iff_same_elements_witness :
    operator_eq ([some [1, 2, 7], some [1, 2]] : Heap Int) false ⟨2, 3, ⟨some 0⟩⟩
        ⟨2, 2, ⟨some 1⟩⟩ =
      some (decide (toList ([some [1, 2, 7], some [1, 2]] : Heap Int) ⟨2, 3, ⟨some 0⟩⟩ =
        toList ([some [1, 2, 7], some [1, 2]] : Heap Int) ⟨2, 2, ⟨some 1⟩⟩)) :=
  (operator_eq_iff_same_elements ([some [1, 2, 7], some [1, 2]] : Heap Int)
    ⟨2, 3, ⟨some 0⟩⟩ ⟨2, 2, ⟨some 1⟩⟩ false (by decide) (by decide) (by decide)).1

/-- C13: on valid vectors `a < b` is true exactly when there is an index `j` below both
sizes with `a[j] < b[j]` and `a[i]`, `b[i]` equivalent for every `i < j`, or every
element of `a` is equivalent to the corresponding element of `b` and `a` is shorter.
`a < a` is false when `<` on elements is irreflexive. On integers `{1,2,3} < {1,2,4}`,
`{1,2} < {1,2,3}`, `{1,2,3} == {1,2,3}` (also by the self-comparison short cut) and
`{2} > {1,9,9}`. -/
theorem operator_lt_lexicographic [LT α] [DecidableRel (fun (x y : α) => x < y)]
    (h : Heap α) (a b : SimpleVector) (ha : Valid h a) (hb : Valid h b) :
    (∃ r, operator_lt h a b = some r ∧
      (r = true ↔
        (∃ (j : Nat) (x y : α), operator_subscript h a j = some x ∧
          operator_subscript h b j = some y ∧ x < y ∧
          ∀ i : Nat, i < j → ∀ u w : α, operator_subscript h a i = some u →
            operator_subscript h b i = some w → ¬ u < w ∧ ¬ w < u) ∨
        (a.GetSize < b.GetSize ∧
          ∀ (i : Nat) (u w : α), operator_subscript h a i = some u →
            operator_subscript h b i = some w → ¬ u < w ∧ ¬ w < u))) ∧
    ((∀ x : α, ¬ x < x) → operator_lt h a a = some false) ∧
    (∀ g : Heap Int,
      (∃ g1 c g2 d, init_construct g [1, 2, 3] = some (g1, c) ∧
        init_construct g1 [1, 2, 4] = some (g2, d) ∧ operator_lt g2 c d = some true) ∧
      (∃ g1 c g2 d, init_construct g [1, 2] = some (g1, c) ∧
        init_construct g1 [1, 2, 3] = some (g2, d) ∧ operator_lt g2 c d = some true) ∧
      (∃ g1 c g2 d, init_construct g [1, 2, 3] = some (g1, c) ∧
        init_construct g1 [1, 2, 3] = some (g2, d) ∧ operator_eq g2 false c d = some true ∧
        operator_eq g2 true c c = some true) ∧
      (∃ g1 c g2 d, init_construct g [2] = some (g1, c) ∧
        init_construct g1 [1, 9, 9] = some (g2, d) ∧ operator_gt g2 c d = some true)) := by
  refine ⟨⟨_, operator_lt_eq_lex_less ha hb, ?_⟩, fun hirr => ?_, fun g => ⟨?_, ?_, ?_, ?_⟩⟩
  · rw [lex_less_iff, toList_length ha, toList_length hb]
    simp only [operator_subscript_eq ha, operator_subscript_eq hb, GetSize]
  · rw [operator_lt_eq_lex_less ha ha, lex_less_irrefl hirr]
  · obtain ⟨g1, c, g2, d, e1, e2, hc, hd, lc, ld⟩ := init_construct_pair g [1, 2, 3] [1, 2, 4]
    refine ⟨g1, c, g2, d, e1, e2, ?_⟩
    rw [operator_lt_eq_lex_less hc hd, lc, ld]
    decide
  · obtain ⟨g1, c, g2, d, e1, e2, hc, hd, lc, ld⟩ := init_construct_pair g [1, 2] [1, 2, 3]
    refine ⟨g1, c, g2, d, e1, e2, ?_⟩
    rw [operator_lt_eq_lex_less hc hd, lc, ld]
    decide
  · obtain ⟨g1, c, g2, d, e1, e2, hc, hd, lc, ld⟩ := init_construct_pair g [1, 2, 3] [1, 2, 3]
    refine ⟨g1, c, g2, d, e1, e2, ?_, by simp [operator_eq]⟩
    exact operator_eq_of_toList_eq (fun x => lt_irrefl x) hc hd (lc.trans ld.symm) false
  · obtain ⟨g1, c, g2, d, e1, e2, hc, hd, lc, ld⟩ := init_construct_pair g [2] [1, 9, 9]
    refine ⟨g1, c, g2, d, e1, e2, ?_⟩
    rw [operator_gt, operator_lt_eq_lex_less hd hc, lc, ld]
    decide

/-- Instance: `[1, 5]` against `[1, 7, 0]` over the naturals. -/
theorem operator_lt_lexicographic_witness :
    ∃ r, operator_lt ([some [1, 5], some [1, 7, 0]] : Heap Nat) ⟨2, 2, ⟨some 0⟩⟩
        ⟨3, 3, ⟨some 1⟩⟩ = some r ∧
      (r = true ↔
        (∃ (j : Nat) (x y : Nat),
          operator_subscript ([some [1, 5], some [1, 7, 0]] : Heap Nat) ⟨2, 2, ⟨some 0⟩⟩ j =
            some x ∧
          operator_subscript ([some [1, 5], some [1, 7, 0]] : Heap Nat) ⟨3, 3, ⟨some 1⟩⟩ j =
            some y ∧ x < y ∧
          ∀ i : Nat, i < j → ∀ u w : Nat,
            operator_subscript ([some [1, 5], some [1, 7, 0]] : Heap Nat)
              ⟨2, 2, ⟨some 0⟩⟩ i = some u →
            operator_subscript ([some [1, 5], some [1, 7, 0]] : Heap Nat)
              ⟨3, 3, ⟨some 1⟩⟩ i = some w → ¬ u < w ∧ ¬ w < u) ∨
        (GetSize ⟨2, 2, ⟨some 0⟩⟩ < GetSize ⟨3, 3, ⟨some 1⟩⟩ ∧
          ∀ (i : Nat) (u w : Nat),
            operator_subscript ([some [1, 5], some [1, 7, 0]] : Heap Nat)
              ⟨2, 2, ⟨some 0⟩⟩ i = some u →
            operator_subscript ([some [1, 5], some [1, 7, 0]] : Heap Nat)
              ⟨3, 3, ⟨some 1⟩⟩ i = some w → ¬ u < w ∧ ¬ w < u)) :=
  (operator_lt_lexicographic ([some [1, 5], some [1, 7, 0]] : Heap Nat) ⟨2, 2, ⟨some 0⟩⟩
    ⟨3, 3, ⟨some 1⟩⟩ (by decide) (by decide)).1

/-- C14: on valid vectors over a linearly ordered element type the six operators return
values with `(a != b) = !(a == b)`, `(a > b) = (b < a)`, `(a <= b) = !(b < a)`,
`(a >= b) = !(a < b)`, and exactly one of `a < b`, `a == b`, `a > b` is true. -/
theorem derived_operators_consistent [LinearOrder α] (h : Heap α) (a b : SimpleVector)
    (same : Bool) (ha : Valid h a) (hb : Valid h b) (hsame : same = true → a = b) :
    ∃ eq lt gt : Bool, operator_eq h same a b = some eq ∧ operator_lt h a b = some lt ∧
      operator_lt h b a = some gt ∧ operator_gt h a b = some gt ∧
      operator_ne h same a b = some (!eq) ∧
      operator_le h same a b = some (!gt) ∧
      operator_ge h same a b = some (!lt) ∧
      ((lt = true ∧ eq = false ∧ gt = false) ∨ (lt = false ∧ eq = true ∧ gt = false) ∨
        (lt = false ∧ eq = false ∧ gt = true)) := by
  have heq := operator_eq_eq_decide ha hb same hsame
  have hlt := operator_lt_eq_lex_less ha hb
  have hgt := operator_lt_eq_lex_less hb ha
  have hiff := lex_less_eq_iff (toList h a) (toList h b)
  have hasym := lex_less_asymm (toList h a) (toList h b)
  have hasym' := lex_less_asymm (toList h b) (toList h a)
  have htot := lex_less_total (toList h a) (toList h b)
  refine ⟨_, _, _, heq, hlt, hgt, hgt, ?_, ?_, ?_, ?_⟩
  · simp only [operator_ne, heq]
  · simp only [operator_le, heq, hlt]
    by_cases he : toList h a = toList h b
    · obtain ⟨h1, h2⟩ := hiff.mpr he
      simp only [h1, h2]
      simp [he]
    · simp only [he, decide_False]
      cases h1 : lex_less (toList h a) (toList h b) with
      | true => simp [hasym h1]
      | false =>
        rcases htot with h2 | h2 | h2
        · rw [h1] at h2; cases h2
        · exact absurd h2 he
        · simp [h2]
  · simp only [operator_ge, operator_gt, heq, hgt]
    by_cases he : toList h a = toList h b
    · obtain ⟨h1, h2⟩ := hiff.mpr he
      simp only [h1, h2]
      simp [he]
    · simp only [he, decide_False]
      cases h1 : lex_less (toList h b) (toList h a) with
      | true => simp [hasym' h1]
      | false =>
        rcases htot with h2 | h2 | h2
        · simp [h2]
        · exact absurd h2 he
        · rw [h1] at h2; cases h2
  · by_cases he : toList h a = toList h b
    · exact Or.inr (Or.inl ⟨(hiff.mpr he).1, by simp [he], (hiff.mpr he).2⟩)
    · rcases htot with h2 | h2 | h2
      · exact Or.inl ⟨h2, by simp [he], hasym h2⟩
      · exact absurd h2 he
      · exact Or.inr (Or.inr ⟨hasym' h2, by simp [he], h2⟩)

/-- Instance: `[1, 5]` against `[1, 7, 0]` over the integers. -/
theorem derived_operators_consistent_witness :
    ∃ eq lt gt : Bool,
      operator_eq ([some [1, 5], some [1, 7, 0]] : Heap Int) false ⟨2, 2, ⟨some 0⟩⟩
        ⟨3, 3, ⟨some 1⟩⟩ = some eq ∧
      operator_lt ([some [1, 5], some [1, 7, 0]] : Heap Int) ⟨2, 2, ⟨some 0⟩⟩
        ⟨3, 3, ⟨some 1⟩⟩ = some lt ∧
      operator_lt ([some [1, 5], some [1, 7, 0]] : Heap Int) ⟨3, 3, ⟨some 1⟩⟩
        ⟨2, 2, ⟨some 0⟩⟩ = some gt ∧
      operator_gt ([some [1, 5], some [1, 7, 0]] : Heap Int) ⟨2, 2, ⟨some 0⟩⟩
        ⟨3, 3, ⟨some 1⟩⟩ = some gt ∧
      operator_ne ([some [1, 5], some [1, 7, 0]] : Heap Int) false ⟨2, 2, ⟨some 0⟩⟩
        ⟨3, 3, ⟨some 1⟩⟩ = some (!eq) ∧
      operator_le ([some [1, 5], some [1, 7, 0]] : Heap Int) false ⟨2, 2, ⟨some 0⟩⟩
        ⟨3, 3, ⟨some 1⟩⟩ = some (!gt) ∧
      operator_ge ([some [1, 5], some [1, 7, 0]] : Heap Int) false ⟨2, 2, ⟨some 0⟩⟩
        ⟨3, 3, ⟨some 1⟩⟩ = some (!lt) ∧
      ((lt = true ∧ eq = false ∧ gt = false) ∨ (lt = false ∧ eq = true ∧ gt = false) ∨
        (lt = false ∧ eq = false ∧ gt = true)) :=
  derived_operators_consistent ([some [1, 5], some [1, 7, 0]] : Heap Int) ⟨2, 2, ⟨some 0⟩⟩
    ⟨3, 3, ⟨some 1⟩⟩ false (by decide) (by decide) (by decide)

end SimpleVector

/-- Two heaps of the same length with the same blocks are the same heap. -/
theorem Heap.ext_getD {α : Type} {h h1 : Heap α} (hlen : h1.length = h.length)
    (hblk : ∀ c, h1.getD c none = h.getD c none) : h1 = h := by
  apply List.ext_getElem hlen
  intro n hn1 hn
  have := hblk n
  rwa [List.getD_eq_getElem _ _ hn1, List.getD_eq_getElem _ _ hn] at this

/-- Filling a range of one live block. -/
theorem std_fill_loop_spec {α : Type} (x : α) (n : Nat) :
    ∀ (i : Nat) (h : Heap α) (b : Nat) (B : List α),
      h.getD b none = some B → i + n ≤ B.length →
      ∃ h1 R, std_fill_loop n (some b) i x h = some h1 ∧
        Heap.Updated h h1 b R ∧ R.length = B.length ∧
        ∀ j, R[j]? = if i ≤ j ∧ j < i + n then some x else B[j]? := by
  induction n with
  | zero =>
    intro i h b B hB _
    refine ⟨h, B, rfl, ⟨rfl, hB, fun _ _ => rfl⟩, rfl, ?_⟩
    intro j
    rw [if_neg (by omega)]
  | succ n ih =>
    intro i h b B hB hi
    obtain ⟨h1, hst, hu⟩ := Heap.store_spec hB (i := i) (by omega) x
    obtain ⟨h2, R, hrun, hu2, hlen, hR⟩ :=
      ih (i + 1) h1 b (B.set i x) hu.2.1 (by simp; omega)
    refine ⟨h2, R, ?_, hu.andThen hu2, by simpa using hlen, ?_⟩
    · simp only [std_fill_loop, hst]
      exact hrun
    · intro j
      simp only [hR j, List.getElem?_set]
      split_ifs <;> first | rfl | (exfalso; omega)

namespace SimpleVector

variable {α : Type}

/-- Specification of the always-filling sized constructor. -/
theorem sized_construct_always_fill_spec [Inhabited α] (h : Heap α) (n : Nat) (x : α) :
    ∃ h1 w, sized_construct_always_fill h n x = some (h1, w) ∧ Valid h1 w ∧
      w.size_ = n ∧ w.capacity_ = n ∧ toList h1 w = List.replicate n x ∧
      h.length ≤ h1.length ∧ (∀ a, a < h.length → h1.getD a none = h.getD a none) ∧
      (w.array_.raw_ptr_ = none ∨ w.array_.raw_ptr_ = some h.length) := by
  by_cases hz : n = 0
  · subst hz
    refine ⟨h, ⟨0, 0, ⟨none⟩⟩, ?_, ⟨le_refl _, Or.inl ⟨rfl, rfl⟩⟩, rfl, rfl,
      toList_of_null rfl, le_refl _, fun _ _ => rfl, Or.inl rfl⟩
    simp only [sized_construct_always_fill, ArrayPtr.create, ne_eq, not_true_eq_false,
      if_false, std_fill, Nat.sub_self, std_fill_loop]
  · set h0 : Heap α := h ++ [some (List.replicate n default)] with hh0
    have hB0 : h0.getD h.length none = some (List.replicate n default) := by
      rw [hh0, Heap.getD_append_one, if_neg (by omega), if_pos rfl]
    obtain ⟨h1, R, hrun, hu, hRlen, hR⟩ :=
      std_fill_loop_spec x n 0 h0 h.length (List.replicate n default) hB0 (by simp)
    have hReq : R = List.replicate n x := by
      apply List.ext_getElem?
      intro j
      rw [hR j]
      simp only [List.getElem?_replicate, Nat.zero_le, true_and, Nat.zero_add]
      split_ifs <;> rfl
    refine ⟨h1, ⟨n, n, ⟨some h.length⟩⟩, ?_,
      Valid.of_block rfl hu.2.1 (by simpa using hRlen) (le_refl _), rfl, rfl, ?_,
      by rw [hu.1, hh0]; simp, fun a ha => ?_, Or.inr rfl⟩
    · simp only [sized_construct_always_fill, create_of_ne_zero h hz, std_fill, ArrayPtr.Get,
        Nat.sub_zero, ← hh0, hrun]
    · rw [toList_of_block rfl hu.2.1, hReq]
      simp
    · rw [hu.2.2 a (by omega), hh0, Heap.getD_append_one, if_pos ha]

/-- The sized constructor is the always-filling one run with the value its guard lets
through: the fill value when `value != Type{}` holds, `Type{}` otherwise. -/
theorem sized_construct_eq_effective_fill [Inhabited α] [BEq α] (h : Heap α) (n : Nat)
    (y : α) :
    sized_construct h n y =
      sized_construct_always_fill h n (if y != default then y else default) := by
  by_cases hne : (y != default) = true
  · simp only [sized_construct, hne, if_true, sized_construct_always_fill]
  · simp only [sized_construct, hne, if_false, sized_construct_always_fill, Bool.false_eq_true]
    by_cases hz : n = 0
    · subst hz
      simp only [ArrayPtr.create, ne_eq, not_true_eq_false, if_false, std_fill,
        Nat.sub_self, std_fill_loop]
    · set h0 : Heap α := h ++ [some (List.replicate n default)] with hh0
      have hB0 : h0.getD h.length none = some (List.replicate n default) := by
        rw [hh0, Heap.getD_append_one, if_neg (by omega), if_pos rfl]
      obtain ⟨h1, R, hrun, hu, hRlen, hR⟩ :=
        std_fill_loop_spec (default : α) n 0 h0 h.length (List.replicate n default) hB0
          (by simp)
      have hReq : R = List.replicate n default := by
        apply List.ext_getElem?
        intro j
        rw [hR j]
        simp only [List.getElem?_replicate, Nat.zero_le, true_and, Nat.zero_add]
        split_ifs <;> rfl
      have hh1 : h1 = h0 := by
        apply Heap.ext_getD hu.1
        intro c
        by_cases hc : c = h.length
        · rw [hc, hu.2.1, hReq, hB0]
        · exact hu.2.2 c hc
      simp only [create_of_ne_zero h hz, std_fill, ArrayPtr.Get, Nat.sub_zero, ← hh0, hrun,
        hh1]

/-- C16, as stated, fails for an element type whose `!=` is not the negation of
equality: with records compared by key, `SimpleVector(2, {0, 5})` finds the fill value
not different from `Type{}`, skips the fill pass and holds two default records with
payload 0, while the always-filling constructor holds the fill value with payload 5. -/
theorem sized_construct_skip_observable :
    (sized_construct ([] : Heap Keyed) 2 ⟨0, 5⟩).map
      (fun r => (toList r.1 r.2).map Keyed.payload) = some [0, 0] ∧
    (sized_construct_always_fill ([] : Heap Keyed) 2 ⟨0, 5⟩).map
      (fun r => (toList r.1 r.2).map Keyed.payload) = some [5, 5] ∧
    sized_construct ([] : Heap Keyed) 2 ⟨0, 5⟩ ≠
      sized_construct_always_fill ([] : Heap Keyed) 2 ⟨0, 5⟩ := by
  have h1 : (sized_construct ([] : Heap Keyed) 2 ⟨0, 5⟩).map
      (fun r => (toList r.1 r.2).map Keyed.payload) = some [0, 0] := by decide
  have h2 : (sized_construct_always_fill ([] : Heap Keyed) 2 ⟨0, 5⟩).map
      (fun r => (toList r.1 r.2).map Keyed.payload) = some [5, 5] := by decide
  refine ⟨h1, h2, fun heq => ?_⟩
  rw [heq, h2] at h1
  exact absurd h1 (by decide)

/-- C16, amended: the sized constructor yields a valid vector of size `n` and capacity
`n` whose every element is the fill value when `value != Type{}` holds and `Type{}`
when it does not, which is what the always-filling constructor builds for that value;
with the default fill value it holds `n` default values; and when a fill value that is
not `!=` to `Type{}` is `Type{}`, every element is the fill value and the constructor
builds exactly what the always-filling constructor builds for the fill value itself. -/
theorem sized_construct_fills [Inhabited α] [BEq α] (h : Heap α) (n : Nat) (x : α) :
    sized_construct h n x =
      sized_construct_always_fill h n (if x != default then x else default) ∧
    (∃ h1 w, sized_construct h n x = some (h1, w) ∧ Valid h1 w ∧
      w.GetSize = n ∧ w.GetCapacity = n ∧
      toList h1 w = List.replicate n (if x != default then x else default) ∧
      (∀ i, i < n →
        operator_subscript h1 w i = some (if x != default then x else default))) ∧
    (∃ h2 w2, sized_construct h n (default : α) = some (h2, w2) ∧
      toList h2 w2 = List.replicate n default) ∧
    (((x != default) = false → x = default) →
      sized_construct h n x = sized_construct_always_fill h n x ∧
      ∃ h1 w, sized_construct h n x = some (h1, w) ∧ Valid h1 w ∧
        w.GetSize = n ∧ w.GetCapacity = n ∧ toList h1 w = List.replicate n x ∧
        (∀ i, i < n → operator_subscript h1 w i = some x)) := by
  have heq := sized_construct_eq_effective_fill h n
  have hfill : ∀ y : α, ∃ h1 w, sized_construct_always_fill h n y = some (h1, w) ∧
      Valid h1 w ∧ w.GetSize = n ∧ w.GetCapacity = n ∧ toList h1 w = List.replicate n y ∧
      (∀ i, i < n → operator_subscript h1 w i = some y) := by
    intro y
    obtain ⟨h1, w, hrun, hv, hs, hc, hl, _⟩ := sized_construct_always_fill_spec h n y
    refine ⟨h1, w, hrun, hv, hs, hc, hl, fun i hi => ?_⟩
    rw [operator_subscript_eq hv, hl, List.getElem?_replicate, if_pos hi]
  have hdef : (if (default : α) != default then (default : α) else default) = default := by
    split_ifs <;> rfl
  refine ⟨heq x, ?_, ?_, fun hx => ?_⟩
  · obtain ⟨h1, w, hrun, hrest⟩ := hfill (if x != default then x else default)
    exact ⟨h1, w, by rw [heq x]; exact hrun, hrest⟩
  · obtain ⟨h2, w2, hrun2, _, _, _, hl2, _⟩ := hfill (default : α)
    exact ⟨h2, w2, by rw [heq, hdef]; exact hrun2, hl2⟩
  · have hval : (if x != default then x else default) = x := by
      by_cases hne : (x != default) = true
      · rw [if_pos hne]
      · rw [if_neg hne]
        exact (hx (by simpa using hne)).symm
    have heqx : sized_construct h n x = sized_construct_always_fill h n x := by
      rw [heq x, hval]
    obtain ⟨h1, w, hrun, hrest⟩ := hfill x
    exact ⟨heqx, h1, w, by rw [heqx]; exact hrun, hrest⟩

/-- Instance: three integers with the default fill value 0, where `!=` is the negation
of equality. -/
theorem sized_construct_fills_witness :
    sized_construct ([] : Heap Int) 3 0 = sized_construct_always_fill ([] : Heap Int) 3 0 ∧
    ∃ h1 w, sized_construct ([] : Heap Int) 3 0 = some (h1, w) ∧ Valid h1 w ∧
      w.GetSize = 3 ∧ w.GetCapacity = 3 ∧ toList h1 w = List.replicate 3 0 ∧
      (∀ i, i < 3 → operator_subscript h1 w i = some 0) :=
  (sized_construct_fills ([] : Heap Int) 3 0).2.2.2 (by decide)

end SimpleVector

namespace SimpleVector

/-- C17: on an integer vector, from an empty vector in any free store, three pushes
give `[1,2,3]` with size 3; `Insert(begin() + 1, 9)` gives `[1,9,2,3]` with size 4;
`Erase(begin() + 2)` gives `[1,9,3]` with size 3; `PopBack()` gives `[1,9]` with
size 2; `Resize(4)` gives `[1,9,0,0]` with size 4 and capacity at least 4. -/
theorem end_to_end_scenario (h : Heap Int) :
    ∃ h1 v1 h2 v2 h3 v3 h4 v4 h5 v5 h6 v6,
      PushBack h empty 1 = some (h1, v1) ∧ PushBack h1 v1 2 = some (h2, v2) ∧
      PushBack h2 v2 3 = some (h3, v3) ∧
      v3.GetSize = 3 ∧ toList h3 v3 = [1, 2, 3] ∧
      Insert h3 v3 1 9 = some (h4, v4, 1) ∧
      toList h4 v4 = [1, 9, 2, 3] ∧ v4.GetSize = 4 ∧
      Erase h4 v4 2 = some (h5, v5, 2) ∧
      toList h5 v5 = [1, 9, 3] ∧ v5.GetSize = 3 ∧
      toList h5 (PopBack v5) = [1, 9] ∧ (PopBack v5).GetSize = 2 ∧
      Resize h5 (PopBack v5) 4 = some (h6, v6) ∧
      toList h6 v6 = [1, 9, 0, 0] ∧ v6.GetSize = 4 ∧ 4 ≤ v6.GetCapacity := by
  obtain ⟨h1, v1, e1, hv1, _, l1, s1, _⟩ := PushBack_spec (Valid_empty h) (1 : Int)
  obtain ⟨h2, v2, e2, hv2, _, l2, s2, _⟩ := PushBack_spec hv1 (2 : Int)
  obtain ⟨h3, v3, e3, hv3, _, l3, s3, _⟩ := PushBack_spec hv2 (3 : Int)
  have hl3 : toList h3 v3 = [1, 2, 3] := by
    rw [l3, l2, l1, toList_of_null rfl]; rfl
  have hs3 : v3.size_ = 3 := by rw [s3, s2, s1]; rfl
  obtain ⟨h4, v4, e4, hv4, _, l4, s4, _⟩ := Insert_spec hv3 (p := 1) (by omega) (9 : Int)
  have hl4 : toList h4 v4 = [1, 9, 2, 3] := by rw [l4, hl3]; rfl
  obtain ⟨h5, v5, e5, hv5, _, l5, s5, _, _⟩ := Erase_spec hv4 (p := 2) (by omega)
  have hl5 : toList h5 v5 = [1, 9, 3] := by rw [l5, hl4]; rfl
  have hs5 : v5.size_ = 3 := by omega
  have hpop : PopBack v5 = { v5 with size_ := 2 } := by
    simp only [PopBack, hs5]; rfl
  have hvp : Valid h5 (PopBack v5) := by
    rw [hpop]
    exact ⟨by show 2 ≤ v5.capacity_; have := hv5.1; omega, hv5.2⟩
  have hlp : toList h5 (PopBack v5) = [1, 9] := by
    have : toList h5 (PopBack v5) = (toList h5 v5).take 2 := by
      rw [hpop]
      simp only [toList]
      cases h5.block v5.array_.raw_ptr_ with
      | none => rfl
      | some A => simp [List.take_take, hs5]
    rw [this, hl5]; rfl
  have hsp : (PopBack v5).size_ = 2 := by rw [hpop]
  obtain ⟨h6, v6, e6, _, _, l6, s6, c6⟩ := Resize_spec hvp 4
  refine ⟨h1, v1, h2, v2, h3, v3, h4, v4, h5, v5, h6, v6, e1, e2, e3, hs3, hl3, e4, hl4,
    by show v4.size_ = 4; omega, e5, hl5, hs5, hlp, hsp, e6, ?_, s6, ?_⟩
  · rw [l6, hlp, hsp]; rfl
  · show 4 ≤ v6.capacity_
    rw [c6]
    split_ifs with hle
    · exact hle
    · exact le_max_left _ _

end SimpleVector

namespace SimpleVector

variable {α : Type}

theorem block_lt_length {h : Heap α} {v : SimpleVector} (hv : Valid h v) (a : Nat)
    (hp : v.array_.raw_ptr_ = some a) : a < h.length := by
  obtain ⟨_, ⟨hn, _⟩ | ⟨e, E, hpe, hE, _⟩⟩ := hv.cases
  · rw [hp] at hn; cases hn
  · rw [hp] at hpe
    cases hpe
    exact Heap.lt_length_of_getD hE

/-- Specification of the reservation constructor. -/
theorem reserve_construct_spec [Inhabited α] (h : Heap α) (obj : ReserveProxyObj) :
    ∃ h1 w, reserve_construct h obj = some (h1, w) ∧ Valid h1 w ∧ w.size_ = 0 ∧
      w.capacity_ = obj.capacity_to_reserve := by
  by_cases hz : obj.capacity_to_reserve = 0
  · refine ⟨h, ⟨0, obj.capacity_to_reserve, ⟨none⟩⟩, ?_, ⟨Nat.zero_le _, Or.inl ⟨rfl, hz⟩⟩,
      rfl, rfl⟩
    simp only [reserve_construct, ArrayPtr.create, hz, ne_eq, not_true_eq_false, if_false,
      Resize, le_refl, if_true]
  · refine ⟨h ++ [some (List.replicate obj.capacity_to_reserve default)],
      ⟨0, obj.capacity_to_reserve, ⟨some h.length⟩⟩, ?_, ?_, rfl, rfl⟩
    · simp only [reserve_construct, create_of_ne_zero h hz, Resize, le_refl, if_true]
    · refine Valid.of_block (A := List.replicate obj.capacity_to_reserve default) rfl ?_
        (by simp) (Nat.zero_le _)
      rw [Heap.getD_append_one, if_neg (by omega), if_pos rfl]

/-- The copy assignment to a distinct valid vector leaves both vectors valid. -/
theorem copy_assign_valid [Inhabited α] {h : Heap α} {this rhs : SimpleVector}
    (hthis : Valid h this) (hrhs : Valid h rhs)
    (hne : ∀ a, rhs.array_.raw_ptr_ = some a → this.array_.raw_ptr_ ≠ some a) :
    ∃ h1 c, copy_assign h this rhs = some (h1, c) ∧ Valid h1 c ∧ Valid h1 rhs := by
  obtain ⟨h1, c, hcopy, hvc, _, _, _, _, hold, hfresh⟩ := copy_construct_spec hrhs
  obtain ⟨_, hv1this⟩ := same_of_block_eq h h1 this
    (fun b hp => hold b (block_lt_length hthis b hp))
  obtain ⟨_, hv1rhs⟩ := same_of_block_eq h h1 rhs
    (fun b hp => hold b (block_lt_length hrhs b hp))
  obtain ⟨h2, hdel, _, hkeep⟩ := delete_array_spec (hv1this hthis)
  obtain ⟨_, hvc2⟩ := same_of_block_eq h1 h2 c (fun a hp =>
    hkeep a (fun hthisp => by
      have := block_lt_length hthis a hthisp
      rcases hfresh with hf | hf
      · rw [hf] at hp; cases hp
      · rw [hf] at hp
        cases hp
        omega))
  obtain ⟨_, hvs2⟩ := same_of_block_eq h1 h2 rhs (fun a hp => hkeep a (hne a hp))
  refine ⟨h2, c, ?_, hvc2 hvc, hvs2 (hv1rhs hrhs)⟩
  simp only [copy_assign, hcopy, swap, ArrayPtr.swap, destroy, ArrayPtr.destroy, hdel]

/-- The constructors establish the representation invariant. -/
theorem constructors_valid [Inhabited α] [BEq α] (h : Heap α) :
    Valid h empty ∧
    (∀ (n : Nat) (x : α), ∃ h1 w, sized_construct h n x = some (h1, w) ∧ Valid h1 w) ∧
    (∀ L : List α, ∃ h1 w, init_construct h L = some (h1, w) ∧ Valid h1 w) ∧
    (∀ obj : ReserveProxyObj, ∃ (h1 : Heap α) (w : SimpleVector),
      reserve_construct h obj = some (h1, w) ∧ Valid h1 w) ∧
    (∀ src, Valid h src → ∃ h1 w, copy_construct h src = some (h1, w) ∧ Valid h1 w) ∧
    (∀ src, Valid h src → ∃ h1 w s, move_construct h src = some (h1, w, s) ∧
      Valid h1 w ∧ Valid h1 s) := by
  refine ⟨Valid_empty h, fun n x => ?_, fun L => ?_, fun obj => ?_, fun src hv => ?_,
    fun src hv => ?_⟩
  · obtain ⟨h1, w, hrun, hv, _⟩ :=
      sized_construct_always_fill_spec h n (if x != default then x else default)
    exact ⟨h1, w, by rw [sized_construct_eq_effective_fill]; exact hrun, hv⟩
  · obtain ⟨h1, w, hrun, hv, _⟩ := init_construct_spec h L
    exact ⟨h1, w, hrun, hv⟩
  · obtain ⟨h1, w, hrun, hv, _⟩ := reserve_construct_spec h obj
    exact ⟨h1, w, hrun, hv⟩
  · obtain ⟨h1, w, hrun, hvw, _⟩ := copy_construct_spec hv
    exact ⟨h1, w, hrun, hvw⟩
  · refine ⟨h, src, ⟨0, 0, ⟨none⟩⟩, ?_, hv, ⟨le_refl _, Or.inl ⟨rfl, rfl⟩⟩⟩
    simp only [move_construct, move_assign, ArrayPtr.Get, Heap.delete_array,
      ArrayPtr.move_assign]

/-- Every public operation other than the move assignment keeps the representation
invariant on each vector involved, and the move assignment keeps it on its destination. -/
theorem operations_valid [Inhabited α] (h : Heap α) (v : SimpleVector) (hv : Valid h v) :
    (∀ (m : Mutation α) (h1 : Heap α) (v1 : SimpleVector),
      mutate h v m = some (h1, v1) → Valid h1 v1) ∧
    (∀ w, Valid h w → Valid h (swap v w).1 ∧ Valid h (swap v w).2) ∧
    (∀ rhs, Valid h rhs →
      (∀ a, rhs.array_.raw_ptr_ = some a → v.array_.raw_ptr_ ≠ some a) →
      ∃ h1 c, copy_assign h v rhs = some (h1, c) ∧ Valid h1 c ∧ Valid h1 rhs) ∧
    (∀ rhs, Valid h rhs →
      (∀ a, rhs.array_.raw_ptr_ = some a → v.array_.raw_ptr_ ≠ some a) →
      ∃ h1 d s, move_assign h v rhs = some (h1, d, s) ∧ Valid h1 d) := by
  refine ⟨fun m h1 v1 hm => (mutate_spec hv m hm).1, fun w hw => ⟨hw, hv⟩,
    fun rhs hrhs hne => copy_assign_valid hv hrhs hne, fun rhs hrhs hne => ?_⟩
  obtain ⟨h1, hdel, _, hkeep⟩ := delete_array_spec hv
  obtain ⟨_, hval⟩ := same_of_block_eq h h1 rhs (fun a hp => hkeep a (hne a hp))
  exact ⟨h1, rhs, ⟨0, 0, ⟨v.array_.raw_ptr_⟩⟩,
    by simp only [move_assign, ArrayPtr.Get, hdel, ArrayPtr.move_assign], hval hrhs⟩

end SimpleVector

/-! ## Amortised growth -/

namespace SimpleVector

variable {α : Type}

/-- One `PushBack` on a non-empty vector whose capacity is a power of two below twice
the size keeps that shape, and moves as many elements as the capacity grows by. -/
theorem PushBack_doubling_step [Inhabited α] {h : Heap α} {v : SimpleVector}
    (hv : Valid h v) (x : α) (h1s : 1 ≤ v.size_)
    (hpow : ∃ e, v.capacity_ = 2 ^ e) (hlt : v.capacity_ < 2 * v.size_) :
    ∃ h1 v1, PushBack h v x = some (h1, v1) ∧ Valid h1 v1 ∧ v1.size_ = v.size_ + 1 ∧
      (∃ e, v1.capacity_ = 2 ^ e) ∧ v1.capacity_ < 2 * v1.size_ ∧
      PushBack_moves v + v.capacity_ = v1.capacity_ := by
  obtain ⟨h1, v1, hpush, hv1, _, _, hs, hc⟩ := PushBack_spec hv x
  have hle := hv.1
  refine ⟨h1, v1, hpush, hv1, hs, ?_, ?_, ?_⟩
  · by_cases hroom : v.size_ < v.capacity_
    · rw [hc, if_pos hroom]; exact hpow
    · obtain ⟨e, he⟩ := hpow
      refine ⟨e + 1, ?_⟩
      rw [hc, if_neg hroom, pow_succ, ← he]
      have : v.size_ + 1 ≤ 2 * v.capacity_ := by omega
      rw [max_eq_right this]
      omega
  · by_cases hroom : v.size_ < v.capacity_
    · rw [hc, if_pos hroom, hs]; omega
    · have : v.size_ + 1 ≤ 2 * v.capacity_ := by omega
      rw [hc, if_neg hroom, hs, max_eq_right this]; omega
  · by_cases hroom : v.size_ < v.capacity_
    · rw [hc, if_pos hroom]
      simp only [PushBack_moves, if_pos hroom]
      omega
    · have : v.size_ + 1 ≤ 2 * v.capacity_ := by omega
      rw [hc, if_neg hroom, max_eq_right this]
      simp only [PushBack_moves, if_neg hroom]
      omega

/-- A run of `PushBack` calls from such a vector. -/
theorem PushBackAll_doubling [Inhabited α] (xs : List α) :
    ∀ (h : Heap α) (v : SimpleVector), Valid h v → 1 ≤ v.size_ →
      (∃ e, v.capacity_ = 2 ^ e) → v.capacity_ < 2 * v.size_ →
      ∃ h1 v1 m, PushBackAll h v xs = some (h1, v1) ∧
        PushBackAll_moves h v xs = some m ∧ v1.size_ = v.size_ + xs.length ∧
        (∃ e, v1.capacity_ = 2 ^ e) ∧ v1.capacity_ < 2 * v1.size_ ∧
        m + v.capacity_ = v1.capacity_ := by
  induction xs with
  | nil =>
    intro h v _ _ hpow hlt
    exact ⟨h, v, 0, rfl, rfl, rfl, hpow, hlt, by omega⟩
  | cons x xs ih =>
    intro h v hv h1s hpow hlt
    obtain ⟨h1, v1, hpush, hv1, hs1, hpow1, hlt1, hm1⟩ :=
      PushBack_doubling_step hv x h1s hpow hlt
    obtain ⟨h2, v2, m, hrun, hmoves, hs2, hpow2, hlt2, hm2⟩ :=
      ih h1 v1 hv1 (by omega) hpow1 hlt1
    refine ⟨h2, v2, PushBack_moves v + m, ?_, ?_, ?_, hpow2, hlt2, by omega⟩
    · simp only [PushBackAll, hpush, hrun]
    · simp only [PushBackAll_moves, hpush, hmoves]
    · rw [hs2, hs1, List.length_cons]; omega

/-- A non-empty run of `PushBack` calls from the empty vector. -/
theorem PushBackAll_from_empty [Inhabited α] (h : Heap α) (vs : List α)
    (hn : 1 ≤ vs.length) :
    ∃ h1 v1 m, PushBackAll h empty vs = some (h1, v1) ∧
      PushBackAll_moves h empty vs = some m ∧ v1.size_ = vs.length ∧
      (∃ e, v1.capacity_ = 2 ^ e) ∧ v1.size_ ≤ v1.capacity_ ∧
      v1.capacity_ < 2 * v1.size_ ∧ m + 1 = v1.capacity_ := by
  cases vs with
  | nil => simp at hn
  | cons x xs =>
    obtain ⟨h1, v1, hpush, hv1, _, _, hs1, hc1⟩ := PushBack_spec (Valid_empty h) x
    have hs1' : v1.size_ = 1 := by rw [hs1]; rfl
    have hc1' : v1.capacity_ = 1 := by rw [hc1]; rfl
    obtain ⟨h2, v2, m, hrun, hmoves, hs2, hpow2, hlt2, hm2⟩ :=
      PushBackAll_doubling xs h1 v1 hv1 (by omega) ⟨0, by rw [hc1']; rfl⟩ (by omega)
    obtain ⟨h3, v3, hrun3, hv3, _⟩ := PushBackAll_spec xs h1 v1 hv1
    have hv2 : Valid h2 v2 := by
      rw [hrun] at hrun3
      cases hrun3
      exact hv3
    refine ⟨h2, v2, m, ?_, ?_, ?_, hpow2, hv2.1, hlt2, by omega⟩
    · simp only [PushBackAll, hpush, hrun]
    · have h0 : PushBack_moves empty = 0 := rfl
      simp only [PushBackAll_moves, hpush, hmoves, h0, Nat.zero_add]
    · rw [hs2, hs1', List.length_cons]; omega

/-- C20: from an empty vector, after `n ≥ 1` consecutive `PushBack` calls the capacity is
the smallest power of two that is at least `n`; the push numbered `k` reallocates
exactly when `k = 1` or `k = 2^j + 1`; and the elements moved by all reallocations
together number less than `2n`. -/
theorem PushBack_capacity_power_of_two [Inhabited α] (h : Heap α) (vs : List α)
    (hn : 1 ≤ vs.length) :
    ∃ h1 v1 m e, PushBackAll h empty vs = some (h1, v1) ∧
      PushBackAll_moves h empty vs = some m ∧
      v1.GetCapacity = 2 ^ e ∧ vs.length ≤ 2 ^ e ∧
      (∀ e', vs.length ≤ 2 ^ e' → 2 ^ e ≤ 2 ^ e') ∧
      m < 2 * vs.length ∧
      ∀ k, 1 ≤ k → k ≤ vs.length →
        ∃ hk vk, PushBackAll h empty (vs.take (k - 1)) = some (hk, vk) ∧
          (PushBack_reallocates vk = true ↔ (k = 1 ∨ ∃ j, k = 2 ^ j + 1)) := by
  obtain ⟨h1, v1, m, hrun, hmoves, hs, ⟨e, he⟩, hle, hlt, hm⟩ :=
    PushBackAll_from_empty h vs hn
  refine ⟨h1, v1, m, e, hrun, hmoves, he, by omega, fun e' he' => ?_, by omega,
    fun k hk1 hk2 => ?_⟩
  · by_contra hcon
    have hlt' : 2 ^ e' < 2 ^ e := by omega
    have hee : e' < e := (Nat.pow_lt_pow_iff_right (by omega)).mp hlt'
    obtain ⟨d, rfl⟩ : ∃ d, e = d + 1 := ⟨e - 1, by omega⟩
    have hmono : 2 ^ e' ≤ 2 ^ d := Nat.pow_le_pow_right (by omega) (by omega)
    rw [pow_succ] at he
    omega
  · by_cases hk : k = 1
    · subst hk
      refine ⟨h, empty, rfl, ?_⟩
      simp [PushBack_reallocates, empty]
    · have hlen : (vs.take (k - 1)).length = k - 1 := by
        rw [List.length_take]; omega
      obtain ⟨hk', vk, mk, hrunk, _, hsk, ⟨ek, hek⟩, hlek, hltk, _⟩ :=
        PushBackAll_from_empty h (vs.take (k - 1)) (by omega)
      refine ⟨hk', vk, hrunk, ?_⟩
      simp only [PushBack_reallocates, Bool.not_eq_true', decide_eq_false_iff_not]
      constructor
      · intro hfull
        exact Or.inr ⟨ek, by omega⟩
      · rintro (h1k | ⟨j, hj⟩)
        · exact absurd h1k hk
        · have hsz : vk.size_ = 2 ^ j := by omega
          have h1 : 2 ^ j ≤ 2 ^ ek := by omega
          have h2 : 2 ^ ek < 2 ^ (j + 1) := by rw [pow_succ]; omega
          have h3 : j ≤ ek := (Nat.pow_le_pow_iff_right (by omega)).mp h1
          have h4 : ek < j + 1 := (Nat.pow_lt_pow_iff_right (by omega)).mp h2
          have h5 : ek = j := by omega
          rw [hek, h5, hsz]
          omega

/-- Instance: five pushes over the naturals. -/
theorem PushBack_capacity_power_of_two_witness :
    ∃ h1 v1 m e, PushBackAll ([] : Heap Nat) empty [1, 2, 3, 4, 5] = some (h1, v1) ∧
      PushBackAll_moves ([] : Heap Nat) empty [1, 2, 3, 4, 5] = some m ∧
      v1.GetCapacity = 2 ^ e ∧ [1, 2, 3, 4, 5].length ≤ 2 ^ e ∧
      (∀ e', [1, 2, 3, 4, 5].length ≤ 2 ^ e' → 2 ^ e ≤ 2 ^ e') ∧
      m < 2 * [1, 2, 3, 4, 5].length ∧
      ∀ k, 1 ≤ k → k ≤ [1, 2, 3, 4, 5].length →
        ∃ hk vk, PushBackAll ([] : Heap Nat) empty ([1, 2, 3, 4, 5].take (k - 1)) =
            some (hk, vk) ∧
          (PushBack_reallocates vk = true ↔ (k = 1 ∨ ∃ j, k = 2 ^ j + 1)) :=
  PushBack_capacity_power_of_two ([] : Heap Nat) [1, 2, 3, 4, 5] (by decide)

end SimpleVector

end SimpleVec
